import Mathlib

/-!
Verification of the Multi-PR-Manager extension core (src/extension.ts,
src/treeViewProvider.ts, src/gitOperations.ts) against its specification.

The TypeScript source is shallowly embedded below:
* pure data (FileItem, PRBucket) becomes Lean structures;
* the mutable tree-provider state becomes an explicit `ProviderState`
  threaded through the operations;
* external processes (git, gh) are modelled by oracle functions returning
  `Except String _` values, and the commands issued are collected in a trace;
* the unbounded restart recursion of `updateBucketOrder` is embedded with an
  explicit fuel parameter; termination is the theorem that the fuel
  `edgeCount + 1` is never exhausted.
-/

namespace MultiPR

/-- A changed file as tracked by the tree provider (`FileItem` in
treeViewProvider.ts).  Display-only metadata (label, size, mtime) is kept
only where an operation reads it. -/
structure FileItem where
  path : String
  status : String
  gitStatus : Option String := none
deriving Repr, DecidableEq

/-- A PR bucket (`PRBucket` in treeViewProvider.ts). -/
structure PRBucket where
  name : String
  title : String
  description : String
  files : List FileItem
  branchName : Option String := none
  dependsOn : Option String := none
  order : Option Nat := none
deriving Repr, DecidableEq

/-- JavaScript `String.prototype.trim`: strip leading and trailing
whitespace.  Modelled over the character list (JS strips Unicode
whitespace; `Char.isWhitespace` is the Lean counterpart). -/
def jsTrim (s : String) : String :=
  String.mk (((s.toList.dropWhile Char.isWhitespace).reverse.dropWhile
    Char.isWhitespace).reverse)

/-- The `validateInput` callback of the bucket-name input box in
`createBucketCommand` (extension.ts): empty names and names already used by
an existing bucket (case-sensitive `===` comparison against the trimmed
input) are rejected with an error message, which VS Code surfaces while
blocking submission. -/
def validateBucketNameInput (buckets : List PRBucket) (value : String) :
    Option String :=
  if (jsTrim value).length == 0 then some "Bucket name cannot be empty"
  else if buckets.any (fun b => b.name == jsTrim value) then
    some "Bucket with this name already exists"
  else none

/-- `createBucket` of `MultiPRTreeProvider`: unconditionally appends a new
bucket with an empty file set, no branch, no dependency. -/
def createBucket (buckets : List PRBucket) (name title description : String) :
    List PRBucket :=
  buckets ++ [{ name := name, title := title, description := description,
                files := [] }]

/-- `createBucketCommand` (extension.ts): the bucket is created only after
the name passes `validateBucketNameInput` and the title is non-empty; on a
validation error nothing is mutated and the message is surfaced. -/
def createBucketCommand (buckets : List PRBucket)
    (value title description : String) : Except String (List PRBucket) :=
  match validateBucketNameInput buckets value with
  | some msg => .error msg
  | none =>
    if (jsTrim title).length == 0 then .error "PR title cannot be empty"
    else .ok (createBucket buckets (jsTrim value) (jsTrim title)
      (jsTrim description))

/-! ## Git operations (gitOperations.ts)

`GitManager` shells out via `execSync`.  The external git process is
modelled by an oracle `exec : String → Except String String` mapping a
command line to its output or failure; each operation returns its
`Except` outcome paired with the trace of git commands it invoked. -/

/-- Ambient context of a `GitManager`: the workspace root (empty string when
no workspace folder is open), the git-process oracle, and the time-derived
suffix used for branch names (`Date.now().toString().slice(-6)`). -/
structure GitCtx where
  workspaceRoot : String
  exec : String → Except String String
  timestampSuffix : String

/-- Shell quoting as done in gitOperations.ts (`"${...}"`). -/
def quoted (s : String) : String := "\"" ++ s ++ "\""

/-- Collapse every run of whitespace to a single dash
(`.replace(/\s+/g, '-')` on input already restricted to `[a-z0-9\s]`). -/
def collapseWs (prevWs : Bool) : List Char → List Char
  | [] => []
  | c :: cs =>
    if c.isWhitespace then
      (if prevWs then [] else ['-']) ++ collapseWs true cs
    else c :: collapseWs false cs

/-- The branch-name sanitizer inside `createBranchForBucket`: lower-case,
drop characters outside `[a-z0-9\s]`, collapse whitespace runs to dashes,
strip leading/trailing dashes, truncate to 40 characters. -/
def sanitizeBucketName (name : String) : String :=
  let step1 := (name.toLower.toList).filter
    (fun c => c.isLower || c.isDigit || c.isWhitespace)
  let step2 := collapseWs false step1
  let step3 := ((step2.dropWhile (fun c => c == '-')).reverse.dropWhile
    (fun c => c == '-')).reverse
  String.mk (step3.take 40)

/-- `createBranchForBucket` (gitOperations.ts).  Throws
`No workspace root found` when no workspace is open; otherwise derives the
branch name, best-effort checks out the base branch (a checkout failure is
swallowed and the branch is created off the current HEAD; the `git pull
--ff-only` result is ignored), then creates and checks out the new branch.
Returns the created branch name and the trace of git commands issued. -/
def createBranchForBucket (ctx : GitCtx) (bucketName : String)
    (baseBranch : Option String) : Except String String × List String :=
  if ctx.workspaceRoot = "" then (.error "No workspace root found", [])
  else
    let branchName :=
      "feature/" ++ sanitizeBucketName bucketName ++ "-" ++ ctx.timestampSuffix
    let baseTrace : List String :=
      match baseBranch with
      | none => []
      | some b =>
        if 0 < (jsTrim b).length then
          match ctx.exec ("git checkout " ++ quoted b) with
          | .ok _ => ["git checkout " ++ quoted b, "git pull --ff-only"]
          | .error _ => ["git checkout " ++ quoted b]
        else []
    let cmd := "git checkout -b " ++ quoted branchName
    match ctx.exec cmd with
    | .ok _ => (.ok branchName, baseTrace ++ [cmd])
    | .error e =>
      (.error ("Failed to create branch for " ++ bucketName ++ ": " ++ e),
        baseTrace ++ [cmd])

/-- The staging command chosen for one file in `stageFilesForBucket`:
files marked as deletions (`status === 'Deleted' || gitStatus === 'D'`) go
through the removal-staging path (`git rm`), everything else through the
regular add path (`git add`). -/
def stageCmdFor (f : FileItem) : String :=
  if f.status == "Deleted" || f.gitStatus == some "D" then
    "git rm -f --ignore-unmatch " ++ quoted f.path
  else
    "git add " ++ quoted f.path

/-- The per-file staging loop of `stageFilesForBucket`.  A `git rm` failure
is swallowed by the inner try/catch (the file was simply not tracked); a
`git add` failure aborts the loop and propagates. -/
def stageLoop (ctx : GitCtx) : List FileItem → Except String Unit × List String
  | [] => (.ok (), [])
  | f :: fs =>
    let cmd := stageCmdFor f
    if f.status == "Deleted" || f.gitStatus == some "D" then
      let rest := stageLoop ctx fs
      (rest.1, cmd :: rest.2)
    else
      match ctx.exec cmd with
      | .ok _ =>
        let rest := stageLoop ctx fs
        (rest.1, cmd :: rest.2)
      | .error e => (.error e, [cmd])

/-- `stageFilesForBucket` (gitOperations.ts): a silent no-op without a
workspace root or for an empty bucket; otherwise `git reset` first (so a
previous bucket's staged state cannot leak in), then each file is staged
individually.  Any propagated failure is wrapped in a per-bucket message. -/
def stageFilesForBucket (ctx : GitCtx) (bucket : PRBucket) :
    Except String Unit × List String :=
  if ctx.workspaceRoot = "" ∨ bucket.files.length = 0 then (.ok (), [])
  else
    match ctx.exec "git reset" with
    | .error e =>
      (.error ("Failed to stage files for " ++ bucket.name ++ ": " ++ e),
        ["git reset"])
    | .ok _ =>
      match stageLoop ctx bucket.files with
      | (.ok _, tr) => (.ok (), "git reset" :: tr)
      | (.error e, tr) =>
        (.error ("Failed to stage files for " ++ bucket.name ++ ": " ++ e),
          "git reset" :: tr)

/-- The commit message built by `commitBucket`: title, optional description,
then the explicit manifest of every file path in the bucket. -/
def commitMessageOf (bucket : PRBucket) : String :=
  bucket.title ++ "\n\n" ++
    (if bucket.description ≠ "" then bucket.description ++ "\n\n" else "") ++
    "Files modified:\n" ++
    String.intercalate "\n" (bucket.files.map (fun f => "- " ++ f.path))

/-- `commitBucket` (gitOperations.ts): a silent no-op without a workspace
root; otherwise writes the message to a temp file and runs
`git commit -F`, wrapping a failure in a per-bucket message. -/
def commitBucket (ctx : GitCtx) (bucket : PRBucket) :
    Except String Unit × List String :=
  if ctx.workspaceRoot = "" then (.ok (), [])
  else
    let tempFile := ctx.workspaceRoot ++ "/.git/COMMIT_EDITMSG_TEMP"
    let cmd := "git commit -F " ++ quoted tempFile
    match ctx.exec cmd with
    | .ok _ => (.ok (), [cmd])
    | .error e =>
      (.error ("Failed to commit " ++ bucket.name ++ ": " ++ e), [cmd])

/-- `pushBranch` (gitOperations.ts): a silent no-op without a workspace
root; otherwise pushes the branch to origin with tracking. -/
def pushBranch (ctx : GitCtx) (branchName : String) :
    Except String Unit × List String :=
  if ctx.workspaceRoot = "" then (.ok (), [])
  else
    let cmd := "git push -u origin " ++ quoted branchName
    match ctx.exec cmd with
    | .ok _ => (.ok (), [cmd])
    | .error e =>
      (.error ("Failed to push branch " ++ branchName ++ ": " ++ e), [cmd])

/-- `switchToBranch` (gitOperations.ts): a silent no-op without a workspace
root; otherwise checks out the branch. -/
def switchToBranch (ctx : GitCtx) (branchName : String) :
    Except String Unit × List String :=
  if ctx.workspaceRoot = "" then (.ok (), [])
  else
    let cmd := "git checkout " ++ quoted branchName
    match ctx.exec cmd with
    | .ok _ => (.ok (), [cmd])
    | .error e =>
      (.error ("Failed to switch to branch " ++ branchName ++ ": " ++ e),
        [cmd])

/-! ## Tree-provider state and file moves (treeViewProvider.ts)

The provider owns the buckets and the unassigned pool (`gitChanges`).
Mutation of the arrays in place becomes explicit state passing. -/

/-- The mutable state of `MultiPRTreeProvider`: the bucket list (insertion
order) and the unassigned pool of changed files. -/
structure ProviderState where
  buckets : List PRBucket
  gitChanges : List FileItem
deriving Repr, DecidableEq

/-- `findIndex` + `splice(idx, 1)`: remove the first file with the given
path, if any. -/
def erasePath (p : String) : List FileItem → List FileItem
  | [] => []
  | f :: fs => if f.path == p then fs else f :: erasePath p fs

/-- `list.find(f => f.path === p)` viewed as a membership test. -/
def hasPath (p : String) (fs : List FileItem) : Bool :=
  fs.any (fun f => f.path == p)

/-- Replace the element at an index, leaving the list unchanged when the
index is out of range. -/
def modifyIdx (g : α → α) : Nat → List α → List α
  | _, [] => []
  | 0, x :: xs => g x :: xs
  | n + 1, x :: xs => x :: modifyIdx g n xs

/-- `moveFileToBucket` (treeViewProvider.ts), with the target bucket
identified by its index: a no-op if the file is already in the target;
otherwise the path is removed from the pool and from every bucket, and the
file is appended to the target's file list. -/
def moveFileToBucket (s : ProviderState) (file : FileItem) (i : Nat) :
    ProviderState :=
  match s.buckets[i]? with
  | none => s
  | some tgt =>
    if hasPath file.path tgt.files then s
    else
      { buckets :=
          modifyIdx (fun b => { b with files := b.files ++ [file] }) i
            (s.buckets.map
              (fun b => { b with files := erasePath file.path b.files })),
        gitChanges := erasePath file.path s.gitChanges }

/-- `moveFileToGitChanges` (treeViewProvider.ts): a no-op if the path is
already in the pool; otherwise the path is removed from every bucket, and
the file is appended to the pool only when some bucket actually held it. -/
def moveFileToGitChanges (s : ProviderState) (file : FileItem) :
    ProviderState :=
  if hasPath file.path s.gitChanges then s
  else
    let removed := s.buckets.any (fun b => hasPath file.path b.files)
    { buckets := s.buckets.map
        (fun b => { b with files := erasePath file.path b.files }),
      gitChanges :=
        if removed then s.gitChanges ++ [file] else s.gitChanges }

/-- The `forEach` in `deleteBucket` that returns a deleted bucket's files
to the pool, skipping any path the pool already holds. -/
def addBackFiles (pool : List FileItem) : List FileItem → List FileItem
  | [] => pool
  | f :: fs =>
    if hasPath f.path pool then addBackFiles pool fs
    else addBackFiles (pool ++ [f]) fs

/-- `deleteBucket` (treeViewProvider.ts), with the bucket identified by its
index (`indexOf` on the object reference): its files go back to the pool
(deduplicated by path) and the bucket is spliced out. -/
def deleteBucket (s : ProviderState) (i : Nat) : ProviderState :=
  match s.buckets[i]? with
  | none => s
  | some b =>
    { buckets := s.buckets.eraseIdx i,
      gitChanges := addBackFiles s.gitChanges b.files }

/-- One user-level mutation of the bucket/pool state. -/
inductive StoreOp where
  | create (name title description : String)
  | moveToBucket (file : FileItem) (i : Nat)
  | moveToPool (file : FileItem)
  | delete (i : Nat)
deriving Repr, DecidableEq

/-- Apply one operation to the provider state. -/
def applyOp (s : ProviderState) : StoreOp → ProviderState
  | .create n t d => { s with buckets := createBucket s.buckets n t d }
  | .moveToBucket f i => moveFileToBucket s f i
  | .moveToPool f => moveFileToGitChanges s f
  | .delete i => deleteBucket s i

/-- Apply a sequence of operations. -/
def applyOps (s : ProviderState) (ops : List StoreOp) : ProviderState :=
  ops.foldl applyOp s

/-- Number of files with the given path in a file list. -/
def countPath (p : String) (fs : List FileItem) : Nat :=
  (fs.filter (fun f => f.path == p)).length

/-- Number of files with the given path across all buckets. -/
def bucketsCount (p : String) : List PRBucket → Nat
  | [] => 0
  | b :: bs => countPath p b.files + bucketsCount p bs

/-- Total number of occurrences of a path across pool and buckets. -/
def totalCount (s : ProviderState) (p : String) : Nat :=
  countPath p s.gitChanges + bucketsCount p s.buckets

/-- The system-wide exclusivity invariant: every path occurs at most once
in total across the pool and all buckets. -/
def Exclusive (s : ProviderState) : Prop := ∀ p, totalCount s p ≤ 1

/-- How many containers (the pool, or one of the buckets) hold a file with
the given path. -/
def containersHolding (p : String) (s : ProviderState) : Nat :=
  (if hasPath p s.gitChanges then 1 else 0) +
    (s.buckets.filter (fun b => hasPath p b.files)).length

/-! ## Dependency resolver (updateBucketOrder in treeViewProvider.ts)

`updateBucketOrder` runs a depth-first topological sort with an in-progress
set (`visiting`) and a done set (`visited`).  In the source, `visited` and
`order` are updated in lockstep under the same guards from the same empty
initial state, so one `done` list models both.  The restart-on-cycle
recursion is embedded with explicit fuel. -/

/-- `this.buckets.find(b => b.name === n)`. -/
def findByName (bs : List PRBucket) (n : String) : Option PRBucket :=
  bs.find? (fun b => b.name == n)

/-- Outcome of one DFS visit. -/
inductive VisitRes where
  | cycle
  | fuelOut
  | ok (done : List String)
deriving Repr, DecidableEq

/-- The recursive `visit` closure of `updateBucketOrder`: a name already
in progress signals a cycle; a finished name is skipped; otherwise the
dependency (when the bucket exists and has one) is visited first and the
name is then appended to the done/order list.  The recursion depth is
bounded by the bucket count, expressed with fuel. -/
def visit (bs : List PRBucket) : Nat → String → List String → List String →
    VisitRes
  | 0, _, _, _ => .fuelOut
  | fuel + 1, name, visiting, done =>
    if visiting.contains name then .cycle
    else if done.contains name then .ok done
    else
      match findByName bs name with
      | some b =>
        match b.dependsOn with
        | some d =>
          match visit bs fuel d (name :: visiting) done with
          | .ok done2 => .ok (done2 ++ [name])
          | .cycle => .cycle
          | .fuelOut => .fuelOut
        | none => .ok (done ++ [name])
      | none => .ok (done ++ [name])

/-- Outcome of one full pass of the outer loop of `updateBucketOrder`. -/
inductive PassRes where
  | ok (done : List String)
  | cycleAt (i : Nat)
  | fuelOut
deriving Repr, DecidableEq

/-- The outer loop of `updateBucketOrder`: visit every not-yet-done bucket
in insertion order; the first bucket whose visit detects a cycle aborts the
pass, reporting that bucket's index.  The loop advance is expressed with
structural fuel (one unit per loop entry, so `bs.length + 1` always
suffices). -/
def sortPassAux (bs : List PRBucket) (dfsFuel : Nat) :
    Nat → Nat → List String → PassRes
  | 0, _, _ => .fuelOut
  | fuel + 1, i, done =>
    match bs[i]? with
    | none => .ok done
    | some b =>
      if done.contains b.name then sortPassAux bs dfsFuel fuel (i + 1) done
      else
        match visit bs dfsFuel b.name [] done with
        | .ok done2 => sortPassAux bs dfsFuel fuel (i + 1) done2
        | .cycle => .cycleAt i
        | .fuelOut => .fuelOut

/-- One pass of the sort with enough fuel for the loop and any DFS chain. -/
def sortPass (bs : List PRBucket) : PassRes :=
  sortPassAux bs (bs.length + 1) (bs.length + 1) 0 []

/-- `order.forEach(...)`: give the first bucket carrying the name the given
order number. -/
def setOrderFirst (n : String) (k : Nat) : List PRBucket → List PRBucket
  | [] => []
  | b :: bs =>
    if b.name == n then { b with order := some k } :: bs
    else b :: setOrderFirst n k bs

/-- Assign each name of the topological sequence its position, starting at
`start` (names of since-deleted buckets are skipped by `setOrderFirst`). -/
def assignOrders (done : List String) (start : Nat) (bs : List PRBucket) :
    List PRBucket :=
  match done with
  | [] => bs
  | n :: rest => assignOrders rest (start + 1) (setOrderFirst n start bs)

/-- Clear the dependency edge of the bucket at the given index
(`bucket.dependsOn = undefined` on the outer-loop bucket). -/
def clearDepAt (i : Nat) (bs : List PRBucket) : List PRBucket :=
  modifyIdx (fun b => { b with dependsOn := none }) i bs

/-- The warning surfaced when a cycle is broken. -/
def warnMsg (bs : List PRBucket) (i : Nat) : String :=
  match bs[i]? with
  | some b =>
    "Circular dependency detected involving " ++ b.name ++
      ". Dependency removed."
  | none => ""

/-- Number of buckets carrying a dependency edge. -/
def edgeCount (bs : List PRBucket) : Nat :=
  (bs.filter (fun b => b.dependsOn.isSome)).length

/-- The restart recursion of `updateBucketOrder` with explicit fuel:
on a cycle the offending outer-loop bucket's edge is cleared, a warning is
recorded, and the sort restarts from scratch.  `none` means the fuel ran
out (proved impossible for fuel `edgeCount + 1`). -/
def updateOrderFuel : Nat → List PRBucket → List String →
    Option (List PRBucket × List String)
  | 0, _, _ => none
  | fuel + 1, bs, ws =>
    match sortPass bs with
    | .ok done => some (assignOrders done 0 bs, ws)
    | .cycleAt i => updateOrderFuel fuel (clearDepAt i bs) (ws ++ [warnMsg bs i])
    | .fuelOut => none

/-- `updateBucketOrder` (treeViewProvider.ts): recompute the processing
order, breaking cycles as needed.  Returns the updated buckets together
with the warnings that were surfaced. -/
def updateBucketOrder (bs : List PRBucket) :
    Option (List PRBucket × List String) :=
  updateOrderFuel (edgeCount bs + 1) bs []

/-- Set the dependency edge on the first bucket carrying the name. -/
def setDepFirst (bucketName : String) (dep : Option String) :
    List PRBucket → List PRBucket
  | [] => []
  | b :: bs =>
    if b.name == bucketName then { b with dependsOn := dep } :: bs
    else b :: setDepFirst bucketName dep bs

/-- `setBucketDependency` (treeViewProvider.ts): set or clear the edge on
the named bucket (if it exists), then recompute the order. -/
def setBucketDependency (bs : List PRBucket) (bucketName : String)
    (dep : Option String) : Option (List PRBucket × List String) :=
  if bs.any (fun b => b.name == bucketName) then
    updateBucketOrder (setDepFirst bucketName dep bs)
  else some (bs, [])

/-- The `order` sort key used by `getBucketsInOrder`: `(a.order || 0)`,
i.e. an unset order — and JavaScript's falsy `0` — both read as `0`. -/
def orderNum (b : PRBucket) : Nat := b.order.getD 0

/-- Stable insertion of a bucket behind every bucket of smaller-or-equal
order key. -/
def insertByOrder (b : PRBucket) : List PRBucket → List PRBucket
  | [] => [b]
  | x :: xs =>
    if orderNum x ≤ orderNum b then x :: insertByOrder b xs else b :: x :: xs

/-- `getBucketsInOrder` (treeViewProvider.ts):
`[...buckets].sort((a, b) => (a.order || 0) - (b.order || 0))`.
ECMAScript `Array.prototype.sort` is a stable sort, and for this
comparator its result is the unique stable ascending reordering by
`orderNum`; insertion sort computes exactly that list. -/
def getBucketsInOrder : List PRBucket → List PRBucket
  | [] => []
  | b :: bs => insertByOrder b (getBucketsInOrder bs)

/-- One dependency edge between bucket names: the first bucket named `n`
declares it depends on `m`. -/
def DepEdge (bs : List PRBucket) (n m : String) : Prop :=
  ∃ b, findByName bs n = some b ∧ b.dependsOn = some m

/-- The dependency graph has no (nonempty) cycle. -/
def AcyclicDeps (bs : List PRBucket) : Prop :=
  ∀ n, ¬ Relation.TransGen (DepEdge bs) n n

/-- Every bucket's order key is strictly above its dependency's order key:
the acyclicity/topological-validity witness produced by the resolver. -/
def OrderRespectsDeps (bs : List PRBucket) : Prop :=
  ∀ b ∈ bs, ∀ d, b.dependsOn = some d →
    ∀ a, findByName bs d = some a → orderNum a < orderNum b

/-- Invariant of the done/order list built by the DFS: no duplicates, and
every listed bucket's dependency (when the bucket exists and has one) is
listed earlier. -/
def DoneGood (bs : List PRBucket) (done : List String) : Prop :=
  done.Nodup ∧
  ∀ n ∈ done, ∀ b, findByName bs n = some b → ∀ dp, b.dependsOn = some dp →
    dp ∈ done ∧ done.indexOf dp < done.indexOf n

/-- The `visiting` stack seen as a chain of dependency edges ending at the
currently visited name: the stack top points at `n`, and each deeper entry
points at the one above it. -/
def ChainsTo (bs : List PRBucket) : List String → String → Prop
  | [], _ => True
  | p :: ps, n => DepEdge bs p n ∧ ChainsTo bs ps p

/-! ## Workflow orchestrator (processBucketsCommand in extension.ts)

The per-bucket pipeline shells out through `GitManager`; those calls are
the adapter boundary and are modelled by an oracle `PipelineEnv`.  The
single `try`/`catch` wrapping the whole loop, and the inner `try`/`catch`
around only the PR-creation step, are modelled exactly. -/

/-- Per-bucket outcome pushed into `results`. -/
structure ProcessingResult where
  bucketName : String
  branchName : String
  url : Option String := none
  error : Option String := none
  success : Bool
  manual : Bool := false
deriving Repr, DecidableEq

/-- Oracle for the adapter calls made inside the processing loop, at the
granularity of the `GitManager` methods the orchestrator awaits. -/
structure PipelineEnv where
  currentBranch : Except String String
  createBranch : String → String → Except String String
  stage : PRBucket → Except String Unit
  commit : PRBucket → Except String Unit
  push : String → Except String Unit
  createPR : String → String → Except String String
  getRepoUrl : Except String String
  switchBranch : String → Except String Unit
  usePRCli : Bool
  isBitbucket : Bool

/-- JavaScript `x || d` on an optional string: `undefined` and the empty
string are both falsy. -/
def jsOrStr (x : Option String) (d : String) : String :=
  match x with
  | some s => if s = "" then d else s
  | none => d

/-- `Object.fromEntries(buckets.map(b => [b.name, b]))[n]`: with duplicate
names the last entry wins, hence the reversed lookup. -/
def lookupBucket (bs : List PRBucket) (n : String) : Option PRBucket :=
  bs.reverse.find? (fun b => b.name == n)

/-- Base-branch resolution for one bucket (extension.ts):
`bucket.dependsOn ? (bucketByName[dependsOn]?.branchName || default) :
default`, including the JavaScript falsiness of an empty string. -/
def resolveBase (bs : List PRBucket) (defaultBase : String) (b : PRBucket) :
    String :=
  match b.dependsOn with
  | none => defaultBase
  | some d =>
    if d = "" then defaultBase
    else
      match lookupBucket bs d with
      | none => defaultBase
      | some a => jsOrStr a.branchName defaultBase

/-- Outcome of one `processAll` run: the per-bucket results that were
recorded, the final bucket state, the `(bucket, base branch)` pairs
resolved for the buckets that were started, whether the switch back to the
original branch was attempted, and the error caught by the run-level
handler (if any). -/
structure RunOutcome where
  results : List ProcessingResult
  buckets : List PRBucket
  basesUsed : List (String × String)
  restoreAttempted : Bool
  thrown : Option String
deriving Repr, DecidableEq

/-- The PR-creation step for one bucket.  On the CLI path a failure is
caught per bucket and recorded as that bucket's failure result; on the
manual path `getRepositoryUrl` is awaited outside any per-bucket handler,
so its failure escapes to the run-level catch (`Except.error`). -/
def prStep (env : PipelineEnv) (b : PRBucket) (branchName base : String) :
    Except String ProcessingResult :=
  if env.usePRCli then
    match env.createPR b.name base with
    | .ok url =>
      .ok { bucketName := b.name, branchName := branchName, url := some url,
            success := true, manual := env.isBitbucket }
    | .error e =>
      .ok { bucketName := b.name, branchName := branchName, error := some e,
            success := false }
  else
    match env.getRepoUrl with
    | .error e => .error e
    | .ok repoUrl =>
      .ok { bucketName := b.name, branchName := branchName,
            url := some (repoUrl ++ "/compare/" ++ branchName),
            success := true, manual := true }

/-- The `for (const bucket of buckets)` loop of `processBucketsCommand`
from index `i`, followed by the switch back to the original branch.  Any
step failure other than the caught PR-creation failure aborts the loop:
the error lands in the run-level catch, the remaining buckets are skipped,
and the restore is never reached.  The loop advance is expressed with
structural fuel (one unit per iteration, so `bs.length + 1` always
suffices; exhaustion yields a distinguished outcome proved unreachable). -/
def runFrom (env : PipelineEnv) (defaultBase originalBranch : String) :
    Nat → List PRBucket → Nat → List ProcessingResult →
    List (String × String) → RunOutcome
  | 0, bs, _, _, _ =>
    { results := [], buckets := bs, basesUsed := [],
      restoreAttempted := false, thrown := some "model: fuel exhausted" }
  | fuel + 1, bs, i, acc, bases =>
    match bs[i]? with
    | none =>
      match env.switchBranch originalBranch with
      | .ok _ =>
        { results := acc.reverse, buckets := bs, basesUsed := bases.reverse,
          restoreAttempted := true, thrown := none }
      | .error e =>
        { results := acc.reverse, buckets := bs, basesUsed := bases.reverse,
          restoreAttempted := true, thrown := some e }
    | some b =>
      let base := resolveBase bs defaultBase b
      let bases2 := (b.name, base) :: bases
      match env.createBranch b.name base with
      | .error e =>
        { results := acc.reverse, buckets := bs, basesUsed := bases2.reverse,
          restoreAttempted := false, thrown := some e }
      | .ok branchName =>
        let b2 := { b with branchName := some branchName }
        let bs2 := bs.set i b2
        match env.stage b2 with
        | .error e =>
          { results := acc.reverse, buckets := bs2,
            basesUsed := bases2.reverse, restoreAttempted := false,
            thrown := some e }
        | .ok _ =>
          match env.commit b2 with
          | .error e =>
            { results := acc.reverse, buckets := bs2,
              basesUsed := bases2.reverse, restoreAttempted := false,
              thrown := some e }
          | .ok _ =>
            match env.push branchName with
            | .error e =>
              { results := acc.reverse, buckets := bs2,
                basesUsed := bases2.reverse, restoreAttempted := false,
                thrown := some e }
            | .ok _ =>
              match prStep env b2 branchName base with
              | .error e =>
                { results := acc.reverse, buckets := bs2,
                  basesUsed := bases2.reverse, restoreAttempted := false,
                  thrown := some e }
              | .ok r =>
                runFrom env defaultBase originalBranch fuel bs2 (i + 1)
                  (r :: acc) bases2

/-- `processAll` on an already filtered, already ordered bucket list:
look up the original branch, then run the loop. -/
def processAll (env : PipelineEnv) (defaultBase : String)
    (buckets : List PRBucket) : RunOutcome :=
  match env.currentBranch with
  | .error e =>
    { results := [], buckets := buckets, basesUsed := [],
      restoreAttempted := false, thrown := some e }
  | .ok original =>
    runFrom env defaultBase original (buckets.length + 1) buckets 0 [] []

/-! ### Ghost reference computation for fully succeeding git adapters

When every branch/stage/commit/push call succeeds — with branch creation
returning `f bucketName baseBranch` — the loop's bucket-state evolution and
base resolutions are the following pure recursions (used only to state and
prove properties of `runFrom`). -/

/-- State update of one loop iteration under a fully succeeding adapter. -/
def okStep (f : String → String → String) (d : String) (bs : List PRBucket)
    (i : Nat) : List PRBucket :=
  match bs[i]? with
  | none => bs
  | some b =>
    bs.set i { b with branchName := some (f b.name (resolveBase bs d b)) }

/-- Bucket state after `k` further iterations starting at index `i`. -/
def stepsFrom (f : String → String → String) (d : String) :
    Nat → List PRBucket → Nat → List PRBucket
  | 0, bs, _ => bs
  | k + 1, bs, i => stepsFrom f d k (okStep f d bs i) (i + 1)

/-- The `(bucket, base branch)` pairs resolved over `k` further
iterations starting at index `i`. -/
def basesFrom (f : String → String → String) (d : String) :
    Nat → List PRBucket → Nat → List (String × String)
  | 0, _, _ => []
  | k + 1, bs, i =>
    match bs[i]? with
    | none => []
    | some b =>
      (b.name, resolveBase bs d b) :: basesFrom f d k (okStep f d bs i) (i + 1)

/-! ## Concrete inputs used by witnesses and counterexamples -/

/-- A concrete bucket `A` with one file and no dependency. -/
def bucketA : PRBucket :=
  { name := "A", title := "A", description := "",
    files := [{ path := "a.txt", status := "Modified" }] }

/-- A concrete bucket `B` with one file and no dependency. -/
def bucketB : PRBucket :=
  { name := "B", title := "B", description := "",
    files := [{ path := "b.txt", status := "Modified" }] }

/-- A concrete bucket `B` depending on bucket `A`. -/
def bucketBdep : PRBucket :=
  { name := "B", title := "B", description := "",
    files := [{ path := "b.txt", status := "Modified" }],
    dependsOn := some "A" }

/-- A pipeline environment in which every adapter call succeeds except that
pushing bucket A's branch fails. -/
def pushFailEnv : PipelineEnv :=
  { currentBranch := .ok "dev",
    createBranch := fun n _ => .ok ("feature/" ++ n),
    stage := fun _ => .ok (),
    commit := fun _ => .ok (),
    push := fun br =>
      if br = "feature/A" then
        .error "Failed to push branch feature/A: remote rejected"
      else .ok (),
    createPR := fun _ _ => .ok "https://example.com/pr",
    getRepoUrl := .ok "https://example.com/repo",
    switchBranch := fun _ => .ok (),
    usePRCli := true,
    isBitbucket := false }

/-- Bucket `A` depending on `B` (resolver scenarios). -/
def depA : PRBucket :=
  { name := "A", title := "A", description := "", files := [],
    dependsOn := some "B" }

/-- Bucket `B` depending on `C` (resolver scenarios). -/
def depB : PRBucket :=
  { name := "B", title := "B", description := "", files := [],
    dependsOn := some "C" }

/-- Bucket `C` with no dependency (resolver scenarios). -/
def depC : PRBucket :=
  { name := "C", title := "C", description := "", files := [] }

/-- Bucket `C` depending on `A`, closing a full three-bucket cycle. -/
def cycC : PRBucket :=
  { name := "C", title := "C", description := "", files := [],
    dependsOn := some "A" }

/-- A concrete changed file for the C3 witness. -/
def demoFile : FileItem := { path := "a.txt", status := "Modified" }

/-- A freshly loaded pool holding one file and no buckets. -/
def startState : ProviderState := { buckets := [], gitChanges := [demoFile] }

/-- A concrete operation sequence: create a bucket, move the file into it,
move it back to the pool. -/
def demoOps : List StoreOp :=
  [.create "B1" "t" "", .moveToBucket demoFile 0, .moveToPool demoFile]

/-- A pipeline environment in which every git call succeeds but every PR
creation fails. -/
def allPrFailEnv : PipelineEnv :=
  { currentBranch := .ok "dev",
    createBranch := fun n _ => .ok ("feature/" ++ n),
    stage := fun _ => .ok (),
    commit := fun _ => .ok (),
    push := fun _ => .ok (),
    createPR := fun _ _ => .error "Failed to create GitHub PR: boom",
    getRepoUrl := .ok "https://example.com/repo",
    switchBranch := fun _ => .ok (),
    usePRCli := true,
    isBitbucket := false }

/-- A pipeline environment in which every git call succeeds but creating
the PR for bucket A fails (the only step with a per-bucket handler). -/
def prFailEnv : PipelineEnv :=
  { currentBranch := .ok "dev",
    createBranch := fun _ _ => .ok "feature/a-123456",
    stage := fun _ => .ok (),
    commit := fun _ => .ok (),
    push := fun _ => .ok (),
    createPR := fun n _ =>
      if n = "A" then .error "Failed to create GitHub PR: boom"
      else .ok "https://example.com/pr",
    getRepoUrl := .ok "https://example.com/repo",
    switchBranch := fun _ => .ok (),
    usePRCli := true,
    isBitbucket := false }

/-- A concrete bucket named `Fix` for the C8 witness. -/
def fixBucket : PRBucket :=
  { name := "Fix", title := "t", description := "", files := [] }

/-- A concrete open-workspace git context whose git calls all succeed. -/
def okCtx : GitCtx :=
  { workspaceRoot := "/w", exec := fun _ => .ok "",
    timestampSuffix := "123456" }

/-- A concrete context with no workspace open. -/
def noRootCtx : GitCtx :=
  { workspaceRoot := "", exec := fun _ => .ok "",
    timestampSuffix := "123456" }

/-- A concrete bucket holding one deleted file and one modified file. -/
def delBucket : PRBucket :=
  { name := "b", title := "t", description := "",
    files := [{ path := "gone.txt", status := "Deleted" },
              { path := "kept.txt", status := "Modified" }] }

/-! ## Theorems -/

/-- C8: for every bucket-store state and every name that exactly
(case-sensitively) matches an existing bucket's name, the create operation
fails with the duplicate-name validation error before any state mutation:
the command returns the error and never produces an extended bucket list,
so no second bucket with that name is ever added.  (The hypotheses
`jsTrim n = n` and `n.length ≠ 0` record that stored bucket names are
always trimmed and non-empty, which creation itself enforces.) -/
theorem C8_duplicate_name_rejected (buckets : List PRBucket)
    (n title description : String) (hdup : ∃ b ∈ buckets, b.name = n)
    (htrim : jsTrim n = n) (hne : n.length ≠ 0) :
    createBucketCommand buckets n title description =
      .error "Bucket with this name already exists" := by
  obtain ⟨b, hb, hbn⟩ := hdup
  have hex : ∃ x ∈ buckets, x.name = n := ⟨b, hb, hbn⟩
  simp [createBucketCommand, validateBucketNameInput, htrim, hne, hex]

/-- C8 witness: a concrete store already holding a bucket named `Fix`
rejects the duplicate name `Fix`. -/
theorem C8_duplicate_name_rejected_witness :
    (∃ b ∈ [fixBucket], b.name = "Fix") ∧
    createBucketCommand [fixBucket] "Fix" "t2" "" =
      .error "Bucket with this name already exists" :=
  ⟨by decide, C8_duplicate_name_rejected _ _ _ _ (by decide) (by decide)
    (by decide)⟩

/-- The staging loop, when every git command succeeds, stages exactly the
given files in order, choosing per file between the removal-staging path
and the add path. -/
theorem stageLoop_all_ok (ctx : GitCtx)
    (hexec : ∀ c, (ctx.exec c).isOk = true) :
    ∀ fs, stageLoop ctx fs = (.ok (), fs.map stageCmdFor) := by
  intro fs
  induction fs with
  | nil => rfl
  | cons f fs ih =>
    by_cases hdel : (f.status == "Deleted" || f.gitStatus == some "D") = true
    · simp [stageLoop, hdel, ih]
    · cases hc : ctx.exec (stageCmdFor f) with
      | ok v => simp [stageLoop, hdel, hc, ih]
      | error e =>
        have := hexec (stageCmdFor f)
        simp [hc, Except.isOk, Except.toBool] at this

/-- C9: for every bucket with at least one file (and an open workspace,
with git itself succeeding), the staging step first issues `git reset`
(unstaging everything) and then one staging command per bucket file, in
order: the removal-staging `git rm` for every file marked Deleted (status
`Deleted` or git status `D`) and the regular `git add` for every other
file — exactly the bucket's files, nothing else. -/
theorem C9_staging_isolation (ctx : GitCtx) (bucket : PRBucket)
    (hroot : ctx.workspaceRoot ≠ "") (hfiles : bucket.files.length ≠ 0)
    (hexec : ∀ c, (ctx.exec c).isOk = true) :
    stageFilesForBucket ctx bucket =
      (.ok (), "git reset" :: bucket.files.map stageCmdFor) := by
  cases hc : ctx.exec "git reset" with
  | error e =>
    have := hexec "git reset"
    simp [hc, Except.isOk, Except.toBool] at this
  | ok v =>
    simp [stageFilesForBucket, hroot, hfiles, hc, stageLoop_all_ok ctx hexec]

/-- C9 witness: a bucket holding one deleted file and one modified file is
staged as `git reset`, then `git rm` for the deletion, then `git add`. -/
theorem C9_staging_isolation_witness :
    okCtx.workspaceRoot ≠ "" ∧
    stageFilesForBucket okCtx delBucket =
      (.ok (), ["git reset", "git rm -f --ignore-unmatch \"gone.txt\"",
                "git add \"kept.txt\""]) :=
  ⟨by decide, by
    have h := C9_staging_isolation okCtx delBucket (by decide) (by decide)
      (fun c => rfl)
    simpa [delBucket] using h⟩

/-- C10: when the workspace root is the empty string, `commitBucket`,
`pushBranch` and `switchToBranch` each return success without issuing a
single git command, while `createBranchForBucket` fails with
`No workspace root found` — so under a missing workspace the pipeline
fails at branch creation, not at a later step. -/
theorem C10_no_workspace (ctx : GitCtx) (hroot : ctx.workspaceRoot = "") :
    (∀ bucket, commitBucket ctx bucket = (.ok (), [])) ∧
    (∀ br, pushBranch ctx br = (.ok (), [])) ∧
    (∀ br, switchToBranch ctx br = (.ok (), [])) ∧
    (∀ n base, createBranchForBucket ctx n base =
      (.error "No workspace root found", [])) := by
  refine ⟨fun bucket => ?_, fun br => ?_, fun br => ?_, fun n base => ?_⟩ <;>
    simp [commitBucket, pushBranch, switchToBranch, createBranchForBucket,
      hroot]

/-! ### Counting lemmas for the exclusivity invariant (C3) -/

theorem countPath_cons (p : String) (f : FileItem) (fs : List FileItem) :
    countPath p (f :: fs) =
      (if f.path == p then 1 else 0) + countPath p fs := by
  by_cases h : (f.path == p) = true <;>
    simp [countPath, List.filter_cons, h, Nat.add_comm]

theorem countPath_append (p : String) (l1 l2 : List FileItem) :
    countPath p (l1 ++ l2) = countPath p l1 + countPath p l2 := by
  simp [countPath, List.filter_append]

theorem countPath_erasePath_self (p : String) (l : List FileItem) :
    countPath p (erasePath p l) = countPath p l - 1 := by
  induction l with
  | nil => rfl
  | cons f fs ih =>
    by_cases h : (f.path == p) = true
    · simp [erasePath, h, countPath_cons]
    · simp [erasePath, h, countPath_cons, ih]

theorem countPath_erasePath_ne (p q : String) (hpq : p ≠ q)
    (l : List FileItem) : countPath p (erasePath q l) = countPath p l := by
  induction l with
  | nil => rfl
  | cons f fs ih =>
    by_cases h : (f.path == q) = true
    · have hq : f.path = q := by simpa using h
      have hfp : (f.path == p) = false := by
        simp [hq, beq_eq_false_iff_ne]
        exact hpq.symm
      simp [erasePath, h, countPath_cons, hfp]
    · simp [erasePath, h, countPath_cons, ih]

theorem hasPath_iff_countPath_pos (p : String) (l : List FileItem) :
    hasPath p l = true ↔ 0 < countPath p l := by
  induction l with
  | nil => simp [hasPath, countPath]
  | cons f fs ih =>
    by_cases h : (f.path == p) = true <;>
      simp [hasPath, countPath_cons, h, ← ih, hasPath]

theorem bucketsCount_append (p : String) (l1 l2 : List PRBucket) :
    bucketsCount p (l1 ++ l2) = bucketsCount p l1 + bucketsCount p l2 := by
  induction l1 with
  | nil => simp [bucketsCount]
  | cons b bs ih => simp [bucketsCount, ih, Nat.add_assoc]

theorem bucketsCount_map_erase_self (p : String) (bs : List PRBucket)
    (h : bucketsCount p bs ≤ 1) :
    bucketsCount p
      (bs.map (fun b => { b with files := erasePath p b.files })) = 0 := by
  induction bs with
  | nil => rfl
  | cons b rest ih =>
    simp only [bucketsCount, List.map_cons] at h ⊢
    have h1 := countPath_erasePath_self p b.files
    have h2 : bucketsCount p rest ≤ 1 := by omega
    have h3 := ih h2
    omega

theorem bucketsCount_map_erase_ne (p q : String) (hpq : p ≠ q)
    (bs : List PRBucket) :
    bucketsCount p
      (bs.map (fun b => { b with files := erasePath q b.files })) =
      bucketsCount p bs := by
  induction bs with
  | nil => rfl
  | cons b rest ih =>
    simp only [bucketsCount, List.map_cons, ih,
      countPath_erasePath_ne p q hpq]

theorem bucketsCount_modifyIdx_le (p : String) (g : PRBucket → PRBucket)
    (k : Nat) (hg : ∀ b, countPath p (g b).files ≤ countPath p b.files + k) :
    ∀ i bs, bucketsCount p (modifyIdx g i bs) ≤ bucketsCount p bs + k := by
  intro i bs
  induction bs generalizing i with
  | nil => cases i <;> simp [modifyIdx, bucketsCount]
  | cons b rest ih =>
    cases i with
    | zero =>
      simp only [modifyIdx, bucketsCount]
      have := hg b
      omega
    | succ n =>
      simp only [modifyIdx, bucketsCount]
      have := ih n
      omega

theorem bucketsCount_modifyIdx_congr (p : String) (g : PRBucket → PRBucket)
    (hg : ∀ b, countPath p (g b).files = countPath p b.files) :
    ∀ i bs, bucketsCount p (modifyIdx g i bs) = bucketsCount p bs := by
  intro i bs
  induction bs generalizing i with
  | nil => cases i <;> simp [modifyIdx, bucketsCount]
  | cons b rest ih =>
    cases i with
    | zero => simp only [modifyIdx, bucketsCount, hg b]
    | succ n => simp only [modifyIdx, bucketsCount, ih n]

theorem bucketsCount_eraseIdx (p : String) :
    ∀ (i : Nat) (bs : List PRBucket) (b : PRBucket), bs[i]? = some b →
      bucketsCount p bs =
        countPath p b.files + bucketsCount p (bs.eraseIdx i) := by
  intro i bs
  induction bs generalizing i with
  | nil => intro b h; simp at h
  | cons x rest ih =>
    intro b h
    cases i with
    | zero =>
      simp only [List.getElem?_cons_zero, Option.some_inj] at h
      subst h
      simp [bucketsCount, List.eraseIdx]
    | succ n =>
      simp only [List.getElem?_cons_succ] at h
      simp only [bucketsCount, List.eraseIdx, ih n b h]
      omega

theorem countPath_addBackFiles (p : String) :
    ∀ (fs pool : List FileItem),
      countPath p (addBackFiles pool fs) ≤
        countPath p pool + countPath p fs := by
  intro fs
  induction fs with
  | nil => intro pool; simp [addBackFiles]
  | cons f rest ih =>
    intro pool
    by_cases h : hasPath f.path pool = true
    · have := ih pool
      simp only [addBackFiles, h, if_true, countPath_cons]
      omega
    · have := ih (pool ++ [f])
      simp only [addBackFiles, h, if_false, countPath_cons]
      rw [countPath_append] at this
      by_cases hf : (f.path == p) = true <;> simp [hf, countPath] at this ⊢ <;>
        omega

/-! ### Preservation of the exclusivity invariant (C3) -/

theorem exclusive_createBucket (s : ProviderState) (n t d : String)
    (h : Exclusive s) :
    Exclusive { s with buckets := createBucket s.buckets n t d } := by
  intro p
  have := h p
  simp only [totalCount, createBucket, bucketsCount_append] at *
  simpa [bucketsCount, countPath] using this

theorem moveFileToBucket_eq (s : ProviderState) (file : FileItem) (i : Nat)
    (tgt : PRBucket) (hbi : s.buckets[i]? = some tgt)
    (hhas : hasPath file.path tgt.files = false) :
    moveFileToBucket s file i =
      { buckets :=
          modifyIdx (fun b => { b with files := b.files ++ [file] }) i
            (s.buckets.map
              (fun b => { b with files := erasePath file.path b.files })),
        gitChanges := erasePath file.path s.gitChanges } := by
  simp [moveFileToBucket, hbi, hhas]

theorem moveFileToBucket_noop (s : ProviderState) (file : FileItem) (i : Nat)
    (h : ∀ tgt, s.buckets[i]? = some tgt → hasPath file.path tgt.files = true) :
    moveFileToBucket s file i = s := by
  unfold moveFileToBucket
  cases hbi : s.buckets[i]? with
  | none => rfl
  | some tgt => simp [h tgt hbi]

theorem exclusive_moveFileToBucket (s : ProviderState) (file : FileItem)
    (i : Nat) (h : Exclusive s) : Exclusive (moveFileToBucket s file i) := by
  cases hbi : s.buckets[i]? with
  | none =>
    unfold moveFileToBucket
    rw [hbi]
    exact h
  | some tgt =>
    cases hhas : hasPath file.path tgt.files with
    | true =>
      rw [moveFileToBucket_noop s file i (fun t ht => by
        rw [hbi] at ht
        cases ht
        exact hhas)]
      exact h
    | false =>
      rw [moveFileToBucket_eq s file i tgt hbi hhas]
      intro p
      have htot := h p
      simp only [totalCount] at htot ⊢
      by_cases hp : p = file.path
      · subst hp
        have hpool := countPath_erasePath_self file.path s.gitChanges
        have hbk : bucketsCount file.path
            (s.buckets.map
              (fun b => { b with files := erasePath file.path b.files })) = 0 :=
          bucketsCount_map_erase_self file.path s.buckets (by omega)
        have hone : countPath file.path [file] ≤ 1 := by
          simp [countPath, List.filter]
        have hmod := bucketsCount_modifyIdx_le file.path
          (fun b => { b with files := b.files ++ [file] }) 1
          (fun b => by
            simp only [countPath_append]
            omega)
          i (s.buckets.map
            (fun b => { b with files := erasePath file.path b.files }))
        omega
      · have hpool := countPath_erasePath_ne p file.path hp s.gitChanges
        have hbk := bucketsCount_map_erase_ne p file.path hp s.buckets
        have hzero : countPath p [file] = 0 := by
          simp [countPath, List.filter_cons]
          intro hc
          exact absurd hc.symm hp
        have hmod := bucketsCount_modifyIdx_congr p
          (fun b => { b with files := b.files ++ [file] })
          (fun b => by
            simp only [countPath_append, hzero, Nat.add_zero])
          i (s.buckets.map
            (fun b => { b with files := erasePath file.path b.files }))
        omega

theorem moveFileToGitChanges_eq (s : ProviderState) (file : FileItem)
    (hhas : hasPath file.path s.gitChanges = false) :
    moveFileToGitChanges s file =
      { buckets := s.buckets.map
          (fun b => { b with files := erasePath file.path b.files }),
        gitChanges :=
          if s.buckets.any (fun b => hasPath file.path b.files) then
            s.gitChanges ++ [file]
          else s.gitChanges } := by
  simp [moveFileToGitChanges, hhas]

theorem exclusive_moveFileToGitChanges (s : ProviderState) (file : FileItem)
    (h : Exclusive s) : Exclusive (moveFileToGitChanges s file) := by
  cases hhas : hasPath file.path s.gitChanges with
  | true =>
    unfold moveFileToGitChanges
    rw [hhas]
    simpa using h
  | false =>
    rw [moveFileToGitChanges_eq s file hhas]
    intro p
    have htot := h p
    simp only [totalCount] at htot ⊢
    by_cases hp : p = file.path
    · subst hp
      have hbk : bucketsCount file.path
          (s.buckets.map
            (fun b => { b with files := erasePath file.path b.files })) = 0 :=
        bucketsCount_map_erase_self file.path s.buckets (by omega)
      have hpool0 : countPath file.path s.gitChanges = 0 := by
        by_contra hc
        have := (hasPath_iff_countPath_pos file.path s.gitChanges).mpr
          (by omega)
        rw [hhas] at this
        cases this
      have hone : countPath file.path [file] ≤ 1 := by
        simp [countPath, List.filter]
      cases hrem : s.buckets.any (fun b => hasPath file.path b.files) with
      | true =>
        simp only [hrem, if_true, countPath_append, hbk]
        omega
      | false =>
        simp only [hrem, Bool.false_eq_true, if_false, hbk]
        omega
    · have hbk := bucketsCount_map_erase_ne p file.path hp s.buckets
      have hzero : countPath p [file] = 0 := by
        simp [countPath, List.filter_cons]
        intro hc
        exact absurd hc.symm hp
      cases hrem : s.buckets.any (fun b => hasPath file.path b.files) with
      | true =>
        simp only [hrem, if_true, countPath_append, hbk, hzero]
        omega
      | false =>
        simp only [hrem, Bool.false_eq_true, if_false, hbk]
        omega

theorem exclusive_deleteBucket (s : ProviderState) (i : Nat)
    (h : Exclusive s) : Exclusive (deleteBucket s i) := by
  intro p
  unfold deleteBucket
  cases hbi : s.buckets[i]? with
  | none => exact h p
  | some b =>
    have htot := h p
    simp only [totalCount] at htot ⊢
    have herase := bucketsCount_eraseIdx p i s.buckets b hbi
    have hadd := countPath_addBackFiles p b.files s.gitChanges
    omega

theorem exclusive_applyOp (s : ProviderState) (op : StoreOp)
    (h : Exclusive s) : Exclusive (applyOp s op) := by
  cases op with
  | create n t d => exact exclusive_createBucket s n t d h
  | moveToBucket f i => exact exclusive_moveFileToBucket s f i h
  | moveToPool f => exact exclusive_moveFileToGitChanges s f h
  | delete i => exact exclusive_deleteBucket s i h

theorem exclusive_applyOps (s : ProviderState) (ops : List StoreOp)
    (h : Exclusive s) : Exclusive (applyOps s ops) := by
  induction ops generalizing s with
  | nil => exact h
  | cons op rest ih => exact ih (applyOp s op) (exclusive_applyOp s op h)

theorem containersHolding_le_totalCount (p : String) (s : ProviderState) :
    containersHolding p s ≤ totalCount s p := by
  unfold containersHolding totalCount
  have hpool : (if hasPath p s.gitChanges then 1 else 0) ≤
      countPath p s.gitChanges := by
    split
    · next hh => exact (hasPath_iff_countPath_pos p s.gitChanges).mp hh
    · omega
  have hbs : ∀ bs : List PRBucket,
      (bs.filter (fun b => hasPath p b.files)).length ≤ bucketsCount p bs := by
    intro bs
    induction bs with
    | nil => simp [bucketsCount]
    | cons b rest ih =>
      by_cases hb : hasPath p b.files = true
      · have := (hasPath_iff_countPath_pos p b.files).mp hb
        simp only [List.filter_cons, hb, if_true, List.length_cons,
          bucketsCount]
        omega
      · simp only [List.filter_cons, hb, Bool.false_eq_true, if_false,
          bucketsCount]
        omega
  have := hbs s.buckets
  omega

/-- C3: for every sequence of bucket-create, file-move (to a bucket or back
to the pool) and bucket-delete operations applied to a state satisfying the
exclusivity invariant (e.g. a freshly loaded pool of distinct paths with no
buckets), every file path is held by at most one container — the unassigned
pool or one bucket — at every observation point.  (Quantifying over all
operation sequences covers every intermediate state, since each prefix of
`ops` is itself such a sequence.) -/
theorem C3_exclusivity (s0 : ProviderState) (h : Exclusive s0)
    (ops : List StoreOp) (p : String) :
    containersHolding p (applyOps s0 ops) ≤ 1 := by
  calc containersHolding p (applyOps s0 ops)
      ≤ totalCount (applyOps s0 ops) p :=
        containersHolding_le_totalCount p (applyOps s0 ops)
    _ ≤ 1 := exclusive_applyOps s0 ops h p

/-- A single-file pool with no buckets satisfies the exclusivity
invariant. -/
theorem exclusive_single_pool (f : FileItem) :
    Exclusive { buckets := [], gitChanges := [f] } := by
  intro p
  simp only [totalCount, bucketsCount, countPath, List.filter]
  split <;> simp

/-- C3 witness: starting from a freshly loaded single-file pool, the
concrete create/move/move-back sequence keeps the file in at most one
container. -/
theorem C3_exclusivity_witness :
    Exclusive startState ∧
    containersHolding "a.txt" (applyOps startState demoOps) ≤ 1 :=
  ⟨by rw [startState]; exact exclusive_single_pool demoFile,
    C3_exclusivity startState
      (by rw [startState]; exact exclusive_single_pool demoFile)
      demoOps "a.txt"⟩

/-! ### Orchestrator lemmas (C1, C2, C7) -/

theorem prStep_ok_name (env : PipelineEnv) (b : PRBucket) (br base : String)
    (r : ProcessingResult) (h : prStep env b br base = .ok r) :
    r.bucketName = b.name := by
  unfold prStep at h
  cases hcli : env.usePRCli <;> rw [hcli] at h
  · cases hru : env.getRepoUrl <;> rw [hru] at h <;> simp at h
    rw [← h]
  · cases hpc : env.createPR b.name base <;> rw [hpc] at h <;> simp at h <;>
      rw [← h]

theorem prStep_isOk (env : PipelineEnv)
    (hcli : env.usePRCli = true ∨ env.getRepoUrl.isOk = true) :
    ∀ b br base, (prStep env b br base).isOk = true := by
  intro b br base
  unfold prStep
  cases hc : env.usePRCli
  · rcases hcli with h | h
    · rw [hc] at h
      cases h
    · cases hru : env.getRepoUrl
      · rw [hru] at h
        simp [Except.isOk, Except.toBool] at h
      · simp [hru, Except.isOk, Except.toBool]
  · cases hpc : env.createPR b.name base <;>
      simp [hpc, Except.isOk, Except.toBool]

/-- Master lemma: under a fully succeeding branch/stage/commit/push adapter
(PR creation arbitrary but total as a per-bucket result), the loop from
index `i` completes, attempts the restore, records exactly one result per
remaining bucket in order, and its state evolution and base resolutions
are the ghost recursions `stepsFrom` and `basesFrom`. -/
theorem runFrom_all_ok (env : PipelineEnv) (f : String → String → String)
    (d o : String)
    (hcb : ∀ n b, env.createBranch n b = .ok (f n b))
    (hst : ∀ b, env.stage b = .ok ())
    (hcm : ∀ b, env.commit b = .ok ())
    (hpu : ∀ br, env.push br = .ok ())
    (hpr : ∀ b br base, (prStep env b br base).isOk = true) :
    ∀ k fuel bs i acc bases, bs.length - i = k → k < fuel →
      (runFrom env d o fuel bs i acc bases).restoreAttempted = true ∧
      (runFrom env d o fuel bs i acc bases).results.map
          (fun r => r.bucketName) =
        acc.reverse.map (fun r => r.bucketName) ++
          (bs.drop i).map (fun b => b.name) ∧
      (runFrom env d o fuel bs i acc bases).buckets = stepsFrom f d k bs i ∧
      (runFrom env d o fuel bs i acc bases).basesUsed =
        bases.reverse ++ basesFrom f d k bs i := by
  intro k
  induction k with
  | zero =>
    intro fuel bs i acc bases hk hf
    cases fuel with
    | zero => omega
    | succ fuel =>
      have hnone : bs[i]? = none := List.getElem?_eq_none (by omega)
      simp only [runFrom, hnone]
      cases hsw : env.switchBranch o <;>
        simp [List.drop_eq_nil_of_le (show bs.length ≤ i by omega),
          stepsFrom, basesFrom]
  | succ k ih =>
    intro fuel bs i acc bases hk hf
    cases fuel with
    | zero => omega
    | succ fuel =>
      have hi : i < bs.length := by omega
      have hget : bs[i]? = some bs[i] := List.getElem?_eq_getElem hi
      simp only [runFrom, hget, hcb, hst, hcm, hpu]
      cases hr : prStep env
          { bs[i] with
            branchName :=
              some (f (bs[i]).name (resolveBase bs d bs[i])) }
          (f (bs[i]).name (resolveBase bs d bs[i]))
          (resolveBase bs d bs[i]) with
      | error e =>
        have hok := hpr
          { bs[i] with
            branchName :=
              some (f (bs[i]).name (resolveBase bs d bs[i])) }
          (f (bs[i]).name (resolveBase bs d bs[i]))
          (resolveBase bs d bs[i])
        rw [hr] at hok
        simp [Except.isOk, Except.toBool] at hok
      | ok r =>
        have hrec := ih fuel
          (bs.set i
            { bs[i] with
              branchName :=
                some (f (bs[i]).name (resolveBase bs d bs[i])) })
          (i + 1) (r :: acc) (((bs[i]).name, resolveBase bs d bs[i]) :: bases)
          (by simp only [List.length_set]; omega) (by omega)
        refine ⟨hrec.1, ?_, ?_, ?_⟩
        · rw [hrec.2.1]
          rw [List.drop_set_of_lt _ _ (Nat.lt_succ_self i)]
          rw [List.drop_eq_getElem_cons hi]
          have hname := prStep_ok_name env _ _ _ r hr
          simp only [hname, List.reverse_cons, List.map_append,
            List.map_cons, List.map_nil, List.append_assoc, List.nil_append,
            List.cons_append, List.singleton_append]
        · rw [hrec.2.2.1]
          simp [stepsFrom, okStep, hget]
        · rw [hrec.2.2.2]
          simp [basesFrom, okStep, hget, List.append_assoc]

theorem okStep_length (f : String → String → String) (d : String)
    (bs : List PRBucket) (i : Nat) :
    (okStep f d bs i).length = bs.length := by
  unfold okStep
  cases hbi : bs[i]? <;> simp [List.length_set]

theorem okStep_getElem?_ne (f : String → String → String) (d : String)
    (bs : List PRBucket) (i j : Nat) (h : j ≠ i) :
    (okStep f d bs i)[j]? = bs[j]? := by
  unfold okStep
  cases hbi : bs[i]? with
  | none => rfl
  | some b => exact List.getElem?_set_ne (fun hc => h hc.symm)

theorem stepsFrom_length (f : String → String → String) (d : String) :
    ∀ k bs i, (stepsFrom f d k bs i).length = bs.length := by
  intro k
  induction k with
  | zero => intro bs i; rfl
  | succ k ih => intro bs i; simp only [stepsFrom, ih, okStep_length]

theorem stepsFrom_getElem?_low (f : String → String → String) (d : String) :
    ∀ k bs i j, j < i → (stepsFrom f d k bs i)[j]? = bs[j]? := by
  intro k
  induction k with
  | zero => intro bs i j _; rfl
  | succ k ih =>
    intro bs i j hj
    simp only [stepsFrom]
    rw [ih (okStep f d bs i) (i + 1) j (by omega)]
    exact okStep_getElem?_ne f d bs i j (by omega)

theorem stepsFrom_getElem?_high (f : String → String → String) (d : String) :
    ∀ k bs i j, i + k ≤ j → (stepsFrom f d k bs i)[j]? = bs[j]? := by
  intro k
  induction k with
  | zero => intro bs i j _; rfl
  | succ k ih =>
    intro bs i j hj
    simp only [stepsFrom]
    rw [ih (okStep f d bs i) (i + 1) j (by omega)]
    exact okStep_getElem?_ne f d bs i j (by omega)

theorem stepsFrom_names (f : String → String → String) (d : String) :
    ∀ k bs i, (stepsFrom f d k bs i).map (fun b => b.name) =
      bs.map (fun b => b.name) := by
  intro k
  induction k with
  | zero => intro bs i; rfl
  | succ k ih =>
    intro bs i
    simp only [stepsFrom, ih]
    unfold okStep
    cases hbi : bs[i]? with
    | none => rfl
    | some b =>
      rw [List.map_set]
      have hlen : i < bs.length := (List.getElem?_eq_some.mp hbi).1
      apply List.ext_getElem?
      intro j
      by_cases hj : j = i
      · subst hj
        rw [List.getElem?_set_self (by simpa using hlen)]
        rw [List.getElem?_map, hbi]
        rfl
      · exact List.getElem?_set_ne (fun hc => hj hc.symm)

theorem stepsFrom_add (f : String → String → String) (d : String) :
    ∀ a b bs i, stepsFrom f d (a + b) bs i =
      stepsFrom f d b (stepsFrom f d a bs i) (i + a) := by
  intro a
  induction a with
  | zero => intro b bs i; simp [stepsFrom]
  | succ a ih =>
    intro b bs i
    have h1 : a + 1 + b = (a + b) + 1 := by omega
    rw [h1]
    show stepsFrom f d (a + b) (okStep f d bs i) (i + 1) = _
    rw [ih b (okStep f d bs i) (i + 1)]
    have h2 : i + 1 + a = i + (a + 1) := by omega
    rw [h2]
    rfl

theorem stepsFrom_set_char (f : String → String → String) (d : String) :
    ∀ k bs i0 j b, i0 ≤ j → j < i0 + k → bs[j]? = some b →
      ∃ n0 b0, (stepsFrom f d k bs i0)[j]? =
        some { b with branchName := some (f n0 b0) } := by
  intro k
  induction k with
  | zero => intro bs i0 j b h1 h2 _; omega
  | succ k ih =>
    intro bs i0 j b h1 h2 hb
    by_cases hj : j = i0
    · subst hj
      simp only [stepsFrom]
      rw [stepsFrom_getElem?_low f d k (okStep f d bs j) (j + 1) j
        (by omega)]
      refine ⟨b.name, resolveBase bs d b, ?_⟩
      unfold okStep
      rw [hb]
      exact List.getElem?_set_self (List.getElem?_eq_some.mp hb).1
    · have hb' : (okStep f d bs i0)[j]? = some b := by
        rw [okStep_getElem?_ne f d bs i0 j hj]
        exact hb
      exact ih (okStep f d bs i0) (i0 + 1) j b (by omega) (by omega) hb'

theorem basesFrom_getElem? (f : String → String → String) (d : String) :
    ∀ j k bs i, j < k → i + j < bs.length →
      ∃ b, (stepsFrom f d j bs i)[i + j]? = some b ∧
        (basesFrom f d k bs i)[j]? =
          some (b.name, resolveBase (stepsFrom f d j bs i) d b) := by
  intro j
  induction j with
  | zero =>
    intro k bs i hk hlen
    cases k with
    | zero => omega
    | succ k =>
      have hget : bs[i]? = some bs[i] :=
        List.getElem?_eq_getElem (by omega)
      refine ⟨bs[i], ?_, ?_⟩
      · simp only [stepsFrom, Nat.add_zero]
        exact hget
      · simp only [basesFrom, hget, stepsFrom, List.getElem?_cons_zero]
  | succ j ih =>
    intro k bs i hk hlen
    cases k with
    | zero => omega
    | succ k =>
      have hi : i < bs.length := by omega
      have hget : bs[i]? = some bs[i] := List.getElem?_eq_getElem hi
      have hlen' : (i + 1) + j < (okStep f d bs i).length := by
        rw [okStep_length]
        omega
      obtain ⟨b, hb1, hb2⟩ := ih k (okStep f d bs i) (i + 1) (by omega) hlen'
      have harith : i + (j + 1) = (i + 1) + j := by omega
      refine ⟨b, ?_, ?_⟩
      · show (stepsFrom f d (j + 1) bs i)[i + (j + 1)]? = some b
        simp only [stepsFrom, harith]
        exact hb1
      · simp only [basesFrom, hget, List.getElem?_cons_succ]
        rw [hb2]
        simp only [stepsFrom]

theorem lookupBucket_of_nodup (l : List PRBucket) (n : String) (b : PRBucket)
    (hnd : (l.map (fun b => b.name)).Nodup) (hb : b ∈ l) (hbn : b.name = n) :
    lookupBucket l n = some b := by
  induction l with
  | nil => cases hb
  | cons x t ih =>
    simp only [List.map_cons, List.nodup_cons] at hnd
    unfold lookupBucket
    simp only [List.reverse_cons]
    rw [List.find?_append]
    rcases List.mem_cons.mp hb with rfl | hbt
    · have hnone : t.reverse.find? (fun bb => bb.name == n) = none := by
        rw [List.find?_eq_none]
        intro y hy
        have hyn : y.name ≠ n := by
          intro hc
          exact hnd.1 (hbn ▸ hc ▸
            List.mem_map_of_mem _ (List.mem_reverse.mp hy))
        simpa using hyn
      rw [hnone]
      simp [List.find?, hbn]
    · have hlk := ih hnd.2 hbt
      unfold lookupBucket at hlk
      rw [hlk]
      rfl

theorem lookupBucket_eq_none (l : List PRBucket) (n : String)
    (h : ∀ b ∈ l, b.name ≠ n) : lookupBucket l n = none := by
  unfold lookupBucket
  rw [List.find?_eq_none]
  intro b hb
  simpa using h b (List.mem_reverse.mp hb)

/-- C7: during `processAll` (with every branch/stage/commit/push call
succeeding so that the run reaches bucket `i`, and all branch names fresh,
i.e. initially unset), the base branch resolved for the bucket at index
`i` with `dependsOn = dep` is: the branch name this run assigned to the
bucket named `dep` when that bucket was processed earlier in the same run
(second conjunct — the final state still carries that assignment), and the
configured default base branch when no bucket named `dep` precedes index
`i` (whether it appears later or not at all — third conjunct). -/
theorem C7_dependency_base (env : PipelineEnv)
    (f : String → String → String) (d o : String) (bs : List PRBucket)
    (hcb : ∀ n b, env.createBranch n b = .ok (f n b))
    (hst : ∀ b, env.stage b = .ok ())
    (hcm : ∀ b, env.commit b = .ok ())
    (hpu : ∀ br, env.push br = .ok ())
    (hcli : env.usePRCli = true ∨ env.getRepoUrl.isOk = true)
    (hcur : env.currentBranch = .ok o)
    (hnodup : (bs.map (fun b => b.name)).Nodup)
    (hinit : ∀ b ∈ bs, b.branchName = none)
    (hne : ∀ n base, f n base ≠ "")
    (i : Nat) (hi : i < bs.length) (dep : String) (hdepne : dep ≠ "")
    (hdep : bs[i].dependsOn = some dep) :
    ∃ base,
      (processAll env d bs).basesUsed[i]? = some (bs[i].name, base) ∧
      (∀ j, j < bs.length → j < i → ∀ hj : j < bs.length,
        bs[j].name = dep →
        ∃ br, (processAll env d bs).buckets[j]? =
            some { bs[j] with branchName := some br } ∧ base = br) ∧
      ((∀ j, ∀ hj : j < bs.length, bs[j].name = dep → i ≤ j) →
        base = d) := by
  have hmaster := runFrom_all_ok env f d o hcb hst hcm hpu
    (prStep_isOk env hcli) bs.length (bs.length + 1) bs 0 [] []
    (by omega) (by omega)
  have hbases : (processAll env d bs).basesUsed =
      basesFrom f d bs.length bs 0 := by
    unfold processAll
    rw [hcur]
    simpa using hmaster.2.2.2
  have hbuckets : (processAll env d bs).buckets =
      stepsFrom f d bs.length bs 0 := by
    unfold processAll
    rw [hcur]
    exact hmaster.2.2.1
  obtain ⟨bi, hbi1, hbi2⟩ := basesFrom_getElem? f d i bs.length bs 0 hi
    (by omega)
  have hbieq : bi = bs[i] := by
    rw [Nat.zero_add] at hbi1
    rw [stepsFrom_getElem?_high f d i bs 0 i (by omega)] at hbi1
    rw [List.getElem?_eq_getElem hi] at hbi1
    exact (Option.some_inj.mp hbi1).symm
  subst hbieq
  set S := stepsFrom f d i bs 0 with hS
  refine ⟨resolveBase S d bs[i], ?_, ?_, ?_⟩
  · rw [hbases]
    simpa using hbi2
  · intro j _ hji hj hjname
    obtain ⟨n0, b0, hchar⟩ := stepsFrom_set_char f d i bs 0 j bs[j]
      (by omega) (by omega) (List.getElem?_eq_getElem hj)
    refine ⟨f n0 b0, ?_, ?_⟩
    · rw [hbuckets]
      have hsplit : bs.length = i + (bs.length - i) := by omega
      rw [hsplit, stepsFrom_add]
      rw [stepsFrom_getElem?_low f d (bs.length - i)
        (stepsFrom f d i bs 0) (0 + i) j (by omega)]
      exact hchar
    · have hmem : ({ bs[j] with branchName := some (f n0 b0) } : PRBucket)
          ∈ S := List.getElem?_mem hchar
      have hSnodup : (S.map (fun b => b.name)).Nodup := by
        rw [hS, stepsFrom_names]
        exact hnodup
      have hlk := lookupBucket_of_nodup S dep _ hSnodup hmem hjname
      unfold resolveBase
      rw [hdep]
      simp only [hdepne, if_false, hlk]
      unfold jsOrStr
      simp [hne n0 b0]
  · intro hno
    unfold resolveBase
    rw [hdep]
    simp only [hdepne, if_false]
    cases hlk : lookupBucket S dep with
    | none => rfl
    | some a =>
      have hamem : a ∈ S := by
        have := List.mem_of_find?_eq_some hlk
        exact List.mem_reverse.mp this
      have haname : a.name = dep := by
        have := List.find?_some hlk
        simpa using this
      obtain ⟨j, hj⟩ : ∃ j : Nat, S[j]? = some a := by
        obtain ⟨jf, hjf⟩ := List.get_of_mem hamem
        exact ⟨jf.1, by
          rw [List.getElem?_eq_getElem jf.2]
          simpa using hjf⟩
      have hjlen : j < bs.length := by
        have := (List.getElem?_eq_some.mp hj).1
        rw [hS, stepsFrom_length] at this
        exact this
      have hjname : bs[j].name = dep := by
        have hmapS : (S.map (fun b => b.name))[j]? = some a.name := by
          rw [List.getElem?_map, hj]
          rfl
        rw [hS, stepsFrom_names] at hmapS
        rw [List.getElem?_map, List.getElem?_eq_getElem hjlen] at hmapS
        have := Option.some_inj.mp hmapS
        rw [← haname]
        exact this
      have hge : i ≤ j := hno j hjlen hjname
      have haeq : a = bs[j] := by
        rw [hS, stepsFrom_getElem?_high f d i bs 0 j (by omega)] at hj
        rw [List.getElem?_eq_getElem hjlen] at hj
        exact (Option.some_inj.mp hj).symm
      have hbn : a.branchName = none := by
        rw [haeq]
        exact hinit bs[j] (List.getElem_mem hjlen)
      show jsOrStr a.branchName d = d
      rw [hbn]
      rfl

/-- C7 witness: bucket `B` depends on bucket `A`; after A's
branch-creation step completed with branch name `feature/a-123456`, B's
base resolution selects `feature/a-123456`, not the configured default
base `main`. -/
theorem C7_dependency_base_witness :
    (([bucketA, bucketBdep].map (fun b => b.name)).Nodup) ∧
    ∃ base,
      (processAll prFailEnv "main" [bucketA, bucketBdep]).basesUsed[1]? =
        some ("B", base) ∧ base = "feature/a-123456" := by
  refine ⟨by decide, ?_⟩
  obtain ⟨base, h1, -, -⟩ := C7_dependency_base prFailEnv
    (fun _ _ => "feature/a-123456") "main" "dev" [bucketA, bucketBdep]
    (fun _ _ => rfl) (fun _ => rfl) (fun _ => rfl) (fun _ => rfl)
    (Or.inl rfl) rfl (by decide) (by decide)
    (fun _ _ => (by decide : "feature/a-123456" ≠ ""))
    1 (by decide) "A" (by decide) (by decide)
  have hval : (processAll prFailEnv "main"
      [bucketA, bucketBdep]).basesUsed[1]? =
      some ("B", "feature/a-123456") := by decide
  rw [hval] at h1
  have hbase : base = "feature/a-123456" :=
    (congrArg Prod.snd (Option.some_inj.mp h1)).symm
  refine ⟨base, ?_, hbase⟩
  rw [hbase]
  exact hval

/-- C1 counterexample: with buckets `A` and `B` (no dependency between
them) and an adapter whose only failure is pushing A's branch, the claim's
expectations fail on the code: no failure `ProcessingResult` is recorded
for A (the results list is empty — the error lands in the run-level catch
instead), and B is not processed at all, so no result marks B succeeded. -/
theorem C1_failure_isolation_counterexample :
    (processAll pushFailEnv "main" [bucketA, bucketB]).results = [] ∧
    (processAll pushFailEnv "main" [bucketA, bucketB]).thrown =
      some "Failed to push branch feature/A: remote rejected" ∧
    ¬ ∃ r ∈ (processAll pushFailEnv "main" [bucketA, bucketB]).results,
        r.bucketName = "B" ∧ r.success = true := by
  have h : (processAll pushFailEnv "main" [bucketA, bucketB]).results = [] :=
    by decide
  refine ⟨h, by decide, ?_⟩
  rintro ⟨r, hr, -⟩
  rw [h] at hr
  exact absurd hr (List.not_mem_nil r)

/-- C1 (amended): only the PR-creation step is isolated per bucket.  When
every bucket's branch-creation, staging, commit and push calls succeed,
each bucket yields exactly one ProcessingResult, in order, even if its
PR creation fails, and the run completes with the restore attempted.  A
failure at branch creation, staging, commit or push is not isolated: it
escapes to the run-level catch, the failing bucket gets no
ProcessingResult, the remaining buckets are skipped, and the original
branch is not restored (as the counterexample shows). -/
theorem C1_failure_isolation_amended (env : PipelineEnv)
    (f : String → String → String) (d o : String) (bs : List PRBucket)
    (hcb : ∀ n b, env.createBranch n b = .ok (f n b))
    (hst : ∀ b, env.stage b = .ok ())
    (hcm : ∀ b, env.commit b = .ok ())
    (hpu : ∀ br, env.push br = .ok ())
    (hcli : env.usePRCli = true ∨ env.getRepoUrl.isOk = true)
    (hcur : env.currentBranch = .ok o) :
    (processAll env d bs).results.map (fun r => r.bucketName) =
      bs.map (fun b => b.name) ∧
    (processAll env d bs).restoreAttempted = true := by
  have h := runFrom_all_ok env f d o hcb hst hcm hpu (prStep_isOk env hcli)
    bs.length (bs.length + 1) bs 0 [] [] (by omega) (by omega)
  unfold processAll
  rw [hcur]
  exact ⟨by simpa using h.2.1, h.1⟩

/-- C1 amended witness: with A's PR creation failing and B's succeeding,
both buckets still get exactly one result each and the restore happens. -/
theorem C1_failure_isolation_amended_witness :
    (∀ n b, prFailEnv.createBranch n b = .ok "feature/a-123456") ∧
    (processAll prFailEnv "main" [bucketA, bucketBdep]).results.map
        (fun r => r.bucketName) = ["A", "B"] ∧
    (processAll prFailEnv "main" [bucketA, bucketBdep]).restoreAttempted =
      true := by
  have h := C1_failure_isolation_amended prFailEnv
    (fun _ _ => "feature/a-123456") "main" "dev" [bucketA, bucketBdep]
    (fun _ _ => rfl) (fun _ => rfl) (fun _ => rfl) (fun _ => rfl)
    (Or.inl rfl) rfl
  exact ⟨fun _ _ => rfl, by simpa [bucketA, bucketBdep] using h.1, h.2⟩

/-- C2 counterexample: with the same push-failure scenario, the orchestrator
does not switch back to the original branch: the restore call is skipped
because the loop's exception lands in the run-level catch first — the
claimed unconditional restoration is false on the code. -/
theorem C2_restore_counterexample :
    (processAll pushFailEnv "main" [bucketA, bucketB]).restoreAttempted =
      false := by decide

/-- C2 (amended): the switch back to the original branch happens exactly
when the loop runs to completion, i.e. when every bucket's branch-creation,
staging, commit and push calls succeed; PR-creation failures (even of
every bucket) do not prevent it.  If any bucket fails at one of those four
steps, the run aborts without restoring the original branch (as the
counterexample shows). -/
theorem C2_restore_amended (env : PipelineEnv)
    (f : String → String → String) (d o : String) (bs : List PRBucket)
    (hcb : ∀ n b, env.createBranch n b = .ok (f n b))
    (hst : ∀ b, env.stage b = .ok ())
    (hcm : ∀ b, env.commit b = .ok ())
    (hpu : ∀ br, env.push br = .ok ())
    (hcli : env.usePRCli = true ∨ env.getRepoUrl.isOk = true)
    (hcur : env.currentBranch = .ok o) :
    (processAll env d bs).restoreAttempted = true := by
  have h := runFrom_all_ok env f d o hcb hst hcm hpu (prStep_isOk env hcli)
    bs.length (bs.length + 1) bs 0 [] [] (by omega) (by omega)
  unfold processAll
  rw [hcur]
  exact h.1

/-- C2 amended witness: even when every bucket's PR creation fails, the
restore still happens. -/
theorem C2_restore_amended_witness :
    (∀ br, allPrFailEnv.push br = .ok ()) ∧
    (processAll allPrFailEnv "main" [bucketA, bucketB]).restoreAttempted =
      true :=
  ⟨fun _ => rfl,
    C2_restore_amended allPrFailEnv (fun n _ => "feature/" ++ n) "main" "dev"
      [bucketA, bucketB] (fun _ _ => rfl) (fun _ => rfl) (fun _ => rfl)
      (fun _ => rfl) (Or.inl rfl) rfl⟩

/-! ### Resolver lemmas (C4, C5, C6) -/

theorem indexOf_append_singleton_self (x : String) (l : List String)
    (h : x ∉ l) : (l ++ [x]).indexOf x = l.length := by
  induction l with
  | nil => simp
  | cons y t ih =>
    have hxy : y ≠ x := fun hc => h (hc ▸ List.mem_cons_self y t)
    simp only [List.cons_append, List.length_cons]
    rw [List.indexOf_cons_ne _ hxy, ih (fun hc => h (List.mem_cons_of_mem y hc))]

theorem findByName_mem (bs : List PRBucket) (n : String) (b : PRBucket)
    (h : findByName bs n = some b) : b ∈ bs ∧ b.name = n :=
  ⟨List.mem_of_find?_eq_some h, by simpa using List.find?_some h⟩

theorem findByName_of_nodup (bs : List PRBucket) (b : PRBucket)
    (hnd : (bs.map (fun x => x.name)).Nodup) (hb : b ∈ bs) :
    findByName bs b.name = some b := by
  induction bs with
  | nil => cases hb
  | cons x t ih =>
    simp only [List.map_cons, List.nodup_cons] at hnd
    rcases List.mem_cons.mp hb with rfl | hbt
    · unfold findByName
      exact List.find?_cons_of_pos t (by simp)
    · have hxn : ¬ (x.name == b.name) = true := by
        simp only [beq_iff_eq]
        exact fun hc => hnd.1 (hc ▸ List.mem_map_of_mem _ hbt)
      unfold findByName at ih ⊢
      rw [List.find?_cons_of_neg t (by simpa using hxn)]
      exact ih hnd.2 hbt

theorem visit_ok_extends (bs : List PRBucket) :
    ∀ fuel n vis done done2, visit bs fuel n vis done = .ok done2 →
      (∃ t, done2 = done ++ t) ∧ n ∈ done2 := by
  intro fuel
  induction fuel with
  | zero => intro n vis done done2 h; simp [visit] at h
  | succ fuel ih =>
    intro n vis done done2 h
    unfold visit at h
    split at h
    · cases h
    · split at h
      · cases h
        exact ⟨⟨[], (List.append_nil done).symm⟩,
          List.elem_iff.mp (by assumption)⟩
      · split at h
        · split at h
          · split at h
            · cases h
              next done1 h5 =>
                obtain ⟨⟨t, ht⟩, -⟩ := ih _ _ _ _ h5
                refine ⟨⟨t ++ [n], by rw [ht, List.append_assoc]⟩, ?_⟩
                exact List.mem_append_right done1 (List.mem_singleton_self n)
            · cases h
            · cases h
          · cases h
            exact ⟨⟨[n], rfl⟩,
              List.mem_append_right done (List.mem_singleton_self n)⟩
        · cases h
          exact ⟨⟨[n], rfl⟩,
            List.mem_append_right done (List.mem_singleton_self n)⟩

theorem visit_ok_fresh (bs : List PRBucket) :
    ∀ fuel n vis done done2, visit bs fuel n vis done = .ok done2 →
      ∀ x ∈ done2, x ∈ done ∨ x ∉ vis := by
  intro fuel
  induction fuel with
  | zero => intro n vis done done2 h; simp [visit] at h
  | succ fuel ih =>
    intro n vis done done2 h x hx
    unfold visit at h
    split at h
    · cases h
    · next h1 =>
      have hnvis : n ∉ vis := fun hc => h1 (List.elem_iff.mpr hc)
      split at h
      · cases h
        exact Or.inl hx
      · split at h
        · split at h
          · split at h
            · cases h
              next done1 h5 =>
                rcases List.mem_append.mp hx with hxl | hxr
                · rcases ih _ _ _ _ h5 x hxl with hin | hout
                  · exact Or.inl hin
                  · exact Or.inr (fun hc => hout (List.mem_cons_of_mem n hc))
                · rw [List.mem_singleton.mp hxr]
                  exact Or.inr hnvis
            · cases h
            · cases h
          · cases h
            rcases List.mem_append.mp hx with hxl | hxr
            · exact Or.inl hxl
            · rw [List.mem_singleton.mp hxr]
              exact Or.inr hnvis
        · cases h
          rcases List.mem_append.mp hx with hxl | hxr
          · exact Or.inl hxl
          · rw [List.mem_singleton.mp hxr]
            exact Or.inr hnvis

theorem visit_done_good (bs : List PRBucket) :
    ∀ fuel n vis done done2, DoneGood bs done →
      visit bs fuel n vis done = .ok done2 → DoneGood bs done2 := by
  intro fuel
  induction fuel with
  | zero => intro n vis done done2 _ h; simp [visit] at h
  | succ fuel ih =>
    intro n vis done done2 hDG h
    unfold visit at h
    split at h
    · cases h
    · next h1 =>
      split at h
      · cases h
        exact hDG
      · next h2 =>
        have hnd : n ∉ done := fun hc => h2 (List.elem_iff.mpr hc)
        split at h
        · next b h3 =>
          split at h
          · next dp h4 =>
            split at h
            · next done1 h5 =>
              cases h
              have hDG1 : DoneGood bs done1 := ih _ _ _ _ hDG h5
              have hn1 : n ∉ done1 := by
                intro hc
                rcases visit_ok_fresh bs fuel dp (n :: vis) done done1 h5 n hc
                  with hin | hout
                · exact hnd hin
                · exact hout (List.mem_cons_self n vis)
              have hdp1 : dp ∈ done1 :=
                (visit_ok_extends bs fuel dp (n :: vis) done done1 h5).2
              refine ⟨hDG1.1.append (List.nodup_singleton n)
                (by simpa using fun hc => hn1 hc), ?_⟩
              intro m hm b2 hb2 dp2 hdp2
              rcases List.mem_append.mp hm with hml | hmr
              · obtain ⟨hdpm, hidx⟩ := hDG1.2 m hml b2 hb2 dp2 hdp2
                refine ⟨List.mem_append_left _ hdpm, ?_⟩
                rw [List.indexOf_append_of_mem hdpm,
                  List.indexOf_append_of_mem hml]
                exact hidx
              · rw [List.mem_singleton.mp hmr] at hb2 ⊢
                rw [h3] at hb2
                cases hb2
                rw [h4] at hdp2
                cases hdp2
                refine ⟨List.mem_append_left _ hdp1, ?_⟩
                rw [List.indexOf_append_of_mem hdp1,
                  indexOf_append_singleton_self n done1 hn1]
                exact List.indexOf_lt_length.mpr hdp1
            · cases h
            · cases h
          · next h4 =>
            cases h
            refine ⟨hDG.1.append (List.nodup_singleton n)
              (by simpa using fun hc => hnd hc), ?_⟩
            intro m hm b2 hb2 dp hdp
            rcases List.mem_append.mp hm with hml | hmr
            · obtain ⟨hdpm, hidx⟩ := hDG.2 m hml b2 hb2 dp hdp
              refine ⟨List.mem_append_left _ hdpm, ?_⟩
              rw [List.indexOf_append_of_mem hdpm,
                List.indexOf_append_of_mem hml]
              exact hidx
            · rw [List.mem_singleton.mp hmr] at hb2
              rw [h3] at hb2
              cases hb2
              rw [h4] at hdp
              cases hdp
        · next h3 =>
          cases h
          refine ⟨hDG.1.append (List.nodup_singleton n)
            (by simpa using fun hc => hnd hc), ?_⟩
          intro m hm b2 hb2 dp hdp
          rcases List.mem_append.mp hm with hml | hmr
          · obtain ⟨hdpm, hidx⟩ := hDG.2 m hml b2 hb2 dp hdp
            refine ⟨List.mem_append_left _ hdpm, ?_⟩
            rw [List.indexOf_append_of_mem hdpm,
              List.indexOf_append_of_mem hml]
            exact hidx
          · rw [List.mem_singleton.mp hmr] at hb2
            rw [h3] at hb2
            cases hb2

theorem visit_no_fuelOut (bs : List PRBucket) :
    ∀ fuel n vis done, vis.Nodup →
      (∀ v ∈ vis, v ∈ bs.map (fun b => b.name)) →
      bs.length + 1 ≤ fuel + vis.length →
      visit bs fuel n vis done ≠ .fuelOut := by
  intro fuel
  induction fuel with
  | zero =>
    intro n vis done hnd hsub hlen
    have hcard : vis.length ≤ (bs.map (fun b => b.name)).length := by
      calc vis.length = vis.toFinset.card :=
            (List.toFinset_card_of_nodup hnd).symm
        _ ≤ (bs.map (fun b => b.name)).toFinset.card :=
            Finset.card_le_card (fun x hx => by
              simp only [List.mem_toFinset] at *
              exact hsub x hx)
        _ ≤ (bs.map (fun b => b.name)).length :=
            (bs.map (fun b => b.name)).toFinset_card_le
    simp only [List.length_map] at hcard
    omega
  | succ fuel ih =>
    intro n vis done hnd hsub hlen
    unfold visit
    split
    · simp
    · next h1 =>
      split
      · simp
      · split
        · next b h3 =>
          split
          · next dp h4 =>
            have hnvis : n ∉ vis := fun hc => h1 (List.elem_iff.mpr hc)
            have hnname : n ∈ bs.map (fun b => b.name) := by
              obtain ⟨hmem, hname⟩ := findByName_mem bs n b h3
              exact hname ▸ List.mem_map_of_mem _ hmem
            have hrec := ih dp (n :: vis) done
              (List.nodup_cons.mpr ⟨hnvis, hnd⟩)
              (fun v hv => by
                rcases List.mem_cons.mp hv with rfl | hvv
                · exact hnname
                · exact hsub v hvv)
              (by simp only [List.length_cons]; omega)
            split
            · simp
            · simp
            · exact absurd (by assumption) hrec
          · simp
        · simp

theorem visit_cycle_dep (bs : List PRBucket) :
    ∀ fuel n done, visit bs fuel n [] done = .cycle →
      ∃ b, findByName bs n = some b ∧ ∃ dp, b.dependsOn = some dp := by
  intro fuel n done h
  cases fuel with
  | zero => simp [visit] at h
  | succ fuel =>
    unfold visit at h
    split at h
    · next h1 => simp [List.contains] at h1
    · split at h
      · cases h
      · split at h
        · next b h3 =>
          split at h
          · next dp h4 => exact ⟨b, h3, dp, h4⟩
          · cases h
        · cases h

theorem chainsTo_transGen (bs : List PRBucket) :
    ∀ vis n, ChainsTo bs vis n → ∀ m ∈ vis,
      Relation.TransGen (DepEdge bs) m n := by
  intro vis
  induction vis with
  | nil => intro n _ m hm; cases hm
  | cons p ps ih =>
    intro n hch m hm
    obtain ⟨hedge, hchain⟩ := hch
    rcases List.mem_cons.mp hm with rfl | hmp
    · exact Relation.TransGen.single hedge
    · exact (ih p hchain m hmp).tail hedge

theorem visit_cycle_has_cycle (bs : List PRBucket) :
    ∀ fuel n vis done, ChainsTo bs vis n →
      visit bs fuel n vis done = .cycle →
      ∃ m, Relation.TransGen (DepEdge bs) m m := by
  intro fuel
  induction fuel with
  | zero => intro n vis done _ h; simp [visit] at h
  | succ fuel ih =>
    intro n vis done hch h
    unfold visit at h
    split at h
    · next h1 =>
      exact ⟨n, chainsTo_transGen bs vis n hch n (List.elem_iff.mp h1)⟩
    · split at h
      · cases h
      · split at h
        · next b h3 =>
          split at h
          · next dp h4 =>
            split at h
            · cases h
            · next h5 => exact ih dp (n :: vis) done ⟨⟨b, h3, h4⟩, hch⟩ h5
            · cases h
          · cases h
        · cases h
theorem sortPassAux_ok (bs : List PRBucket) (dfsFuel : Nat) :
    ∀ fuel i done done2, DoneGood bs done →
      sortPassAux bs dfsFuel fuel i done = .ok done2 →
      DoneGood bs done2 ∧ (∀ x ∈ done, x ∈ done2) ∧
      ∀ j, i ≤ j → ∀ hj : j < bs.length, bs[j].name ∈ done2 := by
  intro fuel
  induction fuel with
  | zero => intro i done done2 _ h; simp [sortPassAux] at h
  | succ fuel ih =>
    intro i done done2 hDG h
    unfold sortPassAux at h
    split at h
    · next hbi =>
      cases h
      have hlen : bs.length ≤ i := by
        by_contra hc
        rw [List.getElem?_eq_getElem (by omega)] at hbi
        cases hbi
      exact ⟨hDG, fun x hx => hx, fun j hij hj => absurd hj (by omega)⟩
    · next b hbi =>
      obtain ⟨hblt, hbeq⟩ := List.getElem?_eq_some.mp hbi
      split at h
      · next h2 =>
        obtain ⟨hDG2, hsub, hcomp⟩ := ih (i + 1) done done2 hDG h
        refine ⟨hDG2, hsub, fun j hij hj => ?_⟩
        by_cases hji : j = i
        · subst hji
          rw [hbeq]
          exact hsub b.name (List.elem_iff.mp h2)
        · exact hcomp j (by omega) hj
      · next h2 =>
        split at h
        · next done1 h5 =>
          have hDG1 : DoneGood bs done1 :=
            visit_done_good bs dfsFuel b.name [] done done1 hDG h5
          obtain ⟨⟨t, ht⟩, hbn1⟩ :=
            visit_ok_extends bs dfsFuel b.name [] done done1 h5
          obtain ⟨hDG2, hsub, hcomp⟩ := ih (i + 1) done1 done2 hDG1 h
          refine ⟨hDG2, fun x hx => hsub x (ht ▸ List.mem_append_left t hx),
            fun j hij hj => ?_⟩
          by_cases hji : j = i
          · subst hji
            rw [hbeq]
            exact hsub b.name hbn1
          · exact hcomp j (by omega) hj
        · cases h
        · cases h

theorem sortPassAux_no_fuelOut (bs : List PRBucket) :
    ∀ fuel i done, i ≤ bs.length → bs.length + 1 ≤ fuel + i →
      sortPassAux bs (bs.length + 1) fuel i done ≠ .fuelOut := by
  intro fuel
  induction fuel with
  | zero => intro i done h1 h2; omega
  | succ fuel ih =>
    intro i done h1 h2
    unfold sortPassAux
    split
    · simp
    · next b hbi =>
      obtain ⟨hblt, hbeq⟩ := List.getElem?_eq_some.mp hbi
      split
      · exact ih (i + 1) done (by omega) (by omega)
      · split
        · exact ih (i + 1) _ (by omega) (by omega)
        · simp
        · next h5 =>
          exact absurd h5 (visit_no_fuelOut bs (bs.length + 1) b.name [] done
            List.nodup_nil (by simp) (by simp))

theorem sortPassAux_cycleAt (bs : List PRBucket) (dfsFuel : Nat) :
    ∀ fuel i done j, sortPassAux bs dfsFuel fuel i done = .cycleAt j →
      ∃ b, bs[j]? = some b ∧
        ∃ b2, findByName bs b.name = some b2 ∧
          ∃ dp, b2.dependsOn = some dp := by
  intro fuel
  induction fuel with
  | zero => intro i done j h; simp [sortPassAux] at h
  | succ fuel ih =>
    intro i done j h
    unfold sortPassAux at h
    split at h
    · cases h
    · next b hbi =>
      split at h
      · exact ih (i + 1) done j h
      · split at h
        · exact ih (i + 1) _ j h
        · next h5 =>
          cases h
          obtain ⟨b2, hf, dp, hdp⟩ := visit_cycle_dep bs dfsFuel b.name _ h5
          exact ⟨b, hbi, b2, hf, dp, hdp⟩
        · cases h

theorem sortPass_ok_good (bs : List PRBucket) (done : List String)
    (h : sortPass bs = .ok done) :
    DoneGood bs done ∧ ∀ b ∈ bs, b.name ∈ done := by
  obtain ⟨hDG, -, hcomp⟩ := sortPassAux_ok bs (bs.length + 1) (bs.length + 1)
    0 [] done ⟨List.nodup_nil, by simp⟩ h
  refine ⟨hDG, fun b hb => ?_⟩
  obtain ⟨j, hjf⟩ := List.get_of_mem hb
  have := hcomp j.1 (by omega) j.2
  rw [← hjf]
  simpa using this

theorem sortPass_no_fuelOut (bs : List PRBucket) : sortPass bs ≠ .fuelOut :=
  sortPassAux_no_fuelOut bs (bs.length + 1) 0 [] (by omega) (by omega)

theorem modifyIdx_map_proj (g : PRBucket → PRBucket) (π : PRBucket → α)
    (hg : ∀ b, π (g b) = π b) :
    ∀ i bs, (modifyIdx g i bs).map π = bs.map π := by
  intro i bs
  induction bs generalizing i with
  | nil => cases i <;> rfl
  | cons x t ih =>
    cases i with
    | zero => simp [modifyIdx, hg]
    | succ n => simp [modifyIdx, ih n]

theorem edgeCount_clearDepAt (bs : List PRBucket) :
    ∀ i b, bs[i]? = some b → b.dependsOn.isSome = true →
      edgeCount (clearDepAt i bs) + 1 = edgeCount bs := by
  intro i b
  induction bs generalizing i with
  | nil => intro h; cases h
  | cons x t ih =>
    intro h hsome
    cases i with
    | zero =>
      rw [List.getElem?_cons_zero] at h
      cases h
      simp only [clearDepAt, modifyIdx, edgeCount, List.filter_cons, hsome,
        if_true, List.length_cons, Option.isSome_none, Bool.false_eq_true,
        if_false]
    | succ n =>
      rw [List.getElem?_cons_succ] at h
      have := ih n h hsome
      simp only [clearDepAt, modifyIdx, edgeCount, List.filter_cons] at this ⊢
      split <;> simp_all

theorem setOrderFirst_map (n : String) (k : Nat) (bs : List PRBucket)
    (hnd : (bs.map (fun b => b.name)).Nodup) :
    setOrderFirst n k bs =
      bs.map (fun b =>
        if b.name = n then { b with order := some k } else b) := by
  induction bs with
  | nil => rfl
  | cons x t ih =>
    simp only [List.map_cons, List.nodup_cons] at hnd
    by_cases hx : x.name = n
    · unfold setOrderFirst
      simp only [List.map_cons]
      rw [if_pos (show (x.name == n) = true by simpa using hx), if_pos hx]
      have htid : t.map (fun b =>
          if b.name = n then { b with order := some k } else b) = t := by
        have hcongr : ∀ b ∈ t, (if b.name = n then
            ({ b with order := some k } : PRBucket) else b) = id b := by
          intro b hb
          have : b.name ≠ n := fun hc =>
            hnd.1 (hx ▸ hc ▸ List.mem_map_of_mem _ hb)
          simp [this]
        rw [List.map_congr_left hcongr, List.map_id]
      rw [htid]
    · unfold setOrderFirst
      simp only [List.map_cons]
      rw [if_neg (show ¬ (x.name == n) = true by simpa using hx), if_neg hx,
        ih hnd.2]

theorem assignOrders_char (done : List String) :
    ∀ (k : Nat) (bs : List PRBucket), (bs.map (fun b => b.name)).Nodup →
      done.Nodup →
      assignOrders done k bs =
        bs.map (fun b =>
          if b.name ∈ done then
            { b with order := some (k + done.indexOf b.name) }
          else b) := by
  induction done with
  | nil =>
    intro k bs _ _
    simp [assignOrders]
  | cons m rest ih =>
    intro k bs hnd hdnd
    have hmrest : m ∉ rest := (List.nodup_cons.mp hdnd).1
    have hrestnd : rest.Nodup := (List.nodup_cons.mp hdnd).2
    simp only [assignOrders]
    rw [setOrderFirst_map m k bs hnd]
    have hnames : ((bs.map (fun b =>
        if b.name = m then { b with order := some k } else b)).map
          (fun b => b.name)) = bs.map (fun b => b.name) := by
      rw [List.map_map]
      apply List.map_congr_left
      intro b _
      by_cases hb : b.name = m <;> simp [hb]
    rw [ih (k + 1) _ (by rw [hnames]; exact hnd) hrestnd]
    rw [List.map_map]
    apply List.map_congr_left
    intro b _
    by_cases hbm : b.name = m
    · have hnr : b.name ∉ rest := hbm ▸ hmrest
      simp only [Function.comp_apply]
      rw [if_pos hbm]
      rw [if_neg (show ({ b with order := some k } : PRBucket).name ∉ rest
        from hnr)]
      rw [if_pos (List.mem_cons.mpr (Or.inl hbm))]
      rw [hbm, List.indexOf_cons_self]
      simp
    · by_cases hbr : b.name ∈ rest
      · simp only [Function.comp_apply]
        rw [if_neg hbm]
        rw [if_pos hbr]
        rw [if_pos (List.mem_cons.mpr (Or.inr hbr))]
        rw [List.indexOf_cons_ne rest (fun hc => hbm hc.symm)]
        have harith : k + 1 + rest.indexOf b.name =
            k + (rest.indexOf b.name + 1) := by omega
        rw [harith]
      · simp only [Function.comp_apply]
        rw [if_neg hbm, if_neg hbr,
          if_neg (show b.name ∉ m :: rest by simp [hbm, hbr])]

theorem ordered_of_pass (bs : List PRBucket) (done : List String)
    (hnd : (bs.map (fun b => b.name)).Nodup) (hDG : DoneGood bs done)
    (hcomp : ∀ b ∈ bs, b.name ∈ done) :
    OrderRespectsDeps (assignOrders done 0 bs) := by
  intro b2 hb2 dp hdp a2 ha2
  have hchar := assignOrders_char done 0 bs hnd hDG.1
  rw [hchar] at hb2 ha2
  obtain ⟨b, hb, rfl⟩ := List.mem_map.mp hb2
  obtain ⟨ha2mem, ha2name⟩ := findByName_mem _ dp a2 ha2
  obtain ⟨a, ha, rfl⟩ := List.mem_map.mp ha2mem
  have hbdone : b.name ∈ done := hcomp b hb
  have hadone : a.name ∈ done := hcomp a ha
  have hbdep : b.dependsOn = some dp := by
    rw [if_pos hbdone] at hdp
    exact hdp
  have haname : a.name = dp := by
    rw [if_pos hadone] at ha2name
    exact ha2name
  obtain ⟨hdpdone, hidx⟩ := hDG.2 b.name hbdone b
    (findByName_of_nodup bs b hnd hb) dp hbdep
  rw [if_pos hbdone, if_pos hadone]
  simp only [orderNum, Option.getD_some]
  rw [haname]
  omega

theorem updateOrderFuel_ok :
    ∀ fuel (bs : List PRBucket) (ws : List String),
      (bs.map (fun b => b.name)).Nodup → edgeCount bs + 1 ≤ fuel →
      ∃ bs2 ws2, updateOrderFuel fuel bs ws = some (bs2, ws2) ∧
        OrderRespectsDeps bs2 := by
  intro fuel
  induction fuel with
  | zero => intro bs ws _ h; omega
  | succ fuel ih =>
    intro bs ws hnd hec
    cases hsp : sortPass bs with
    | ok done =>
      obtain ⟨hDG, hcomp⟩ := sortPass_ok_good bs done hsp
      refine ⟨assignOrders done 0 bs, ws, ?_, ?_⟩
      · unfold updateOrderFuel
        rw [hsp]
      · exact ordered_of_pass bs done hnd hDG hcomp
    | cycleAt i =>
      obtain ⟨b, hbi, b2, hf, dp, hdp⟩ :=
        sortPassAux_cycleAt bs (bs.length + 1) (bs.length + 1) 0 [] i hsp
      have hbmem : b ∈ bs := List.getElem?_mem hbi
      have hb2b : b2 = b := by
        rw [findByName_of_nodup bs b hnd hbmem] at hf
        exact Option.some_inj.mp hf.symm
      have hsome : b.dependsOn.isSome = true := by
        rw [← hb2b, hdp]
        rfl
      have hec2 := edgeCount_clearDepAt bs i b hbi hsome
      have hnd2 : ((clearDepAt i bs).map (fun b => b.name)).Nodup := by
        unfold clearDepAt
        rw [modifyIdx_map_proj (fun b => { b with dependsOn := none })
          (fun b => b.name) (fun b => rfl) i bs]
        exact hnd
      obtain ⟨bs2, ws2, heq, hord⟩ := ih (clearDepAt i bs)
        (ws ++ [warnMsg bs i]) hnd2 (by omega)
      refine ⟨bs2, ws2, ?_, hord⟩
      unfold updateOrderFuel
      rw [hsp]
      exact heq
    | fuelOut => exact absurd hsp (sortPass_no_fuelOut bs)

/-- C4: for every bucket set (with the unique names that creation
enforces) and every dependency edge set, including cyclic ones through
every bucket, the order recomputation terminates — the fuelled restart
recursion never exhausts its `edgeCount + 1` budget, since each restart
clears one edge of a bucket that provably has one — and the resulting
buckets carry an acyclic assignment of order values: every bucket's order
key is strictly above its (existing) dependency's order key. -/
theorem C4_cycle_termination (bs : List PRBucket)
    (hnd : (bs.map (fun b => b.name)).Nodup) :
    ∃ bs2 ws, updateBucketOrder bs = some (bs2, ws) ∧
      OrderRespectsDeps bs2 :=
  updateOrderFuel_ok (edgeCount bs + 1) bs [] hnd (Nat.le_refl _)

/-- C4 witness: the adversarial full cycle `A → B → C → A` still
terminates with an acyclic order assignment. -/
theorem C4_cycle_termination_witness :
    (([depA, depB, cycC].map (fun b => b.name)).Nodup) ∧
    ∃ bs2 ws, updateBucketOrder [depA, depB, cycC] = some (bs2, ws) ∧
      OrderRespectsDeps bs2 :=
  ⟨by decide, C4_cycle_termination [depA, depB, cycC] (by decide)⟩

theorem sortPassAux_no_cycle (bs : List PRBucket) (dfsFuel : Nat)
    (hacyc : AcyclicDeps bs) :
    ∀ fuel i done j, sortPassAux bs dfsFuel fuel i done ≠ .cycleAt j := by
  intro fuel
  induction fuel with
  | zero => intro i done j; simp [sortPassAux]
  | succ fuel ih =>
    intro i done j
    unfold sortPassAux
    split
    · simp
    · next b hbi =>
      split
      · exact ih (i + 1) done j
      · split
        · exact ih (i + 1) _ j
        · next h5 =>
          obtain ⟨m, hm⟩ :=
            visit_cycle_has_cycle bs dfsFuel b.name [] _ trivial h5
          exact absurd hm (hacyc m)
        · simp

theorem setOrderFirst_proj (n : String) (k : Nat) :
    ∀ bs : List PRBucket,
      (setOrderFirst n k bs).map (fun b => (b.name, b.dependsOn)) =
        bs.map (fun b => (b.name, b.dependsOn)) := by
  intro bs
  induction bs with
  | nil => rfl
  | cons x t ih =>
    unfold setOrderFirst
    split
    · simp
    · simp [ih]

theorem assignOrders_proj (done : List String) :
    ∀ (k : Nat) (bs : List PRBucket),
      (assignOrders done k bs).map (fun b => (b.name, b.dependsOn)) =
        bs.map (fun b => (b.name, b.dependsOn)) := by
  induction done with
  | nil => intro k bs; rfl
  | cons m rest ih =>
    intro k bs
    simp only [assignOrders]
    rw [ih (k + 1) (setOrderFirst m k bs), setOrderFirst_proj]

theorem assignOrders_map_name (done : List String) (k : Nat)
    (bs : List PRBucket) :
    (assignOrders done k bs).map (fun b => b.name) =
      bs.map (fun b => b.name) := by
  have h := congrArg (List.map Prod.fst) (assignOrders_proj done k bs)
  simpa [List.map_map, Function.comp] using h

theorem assignOrders_map_dependsOn (done : List String) (k : Nat)
    (bs : List PRBucket) :
    (assignOrders done k bs).map (fun b => b.dependsOn) =
      bs.map (fun b => b.dependsOn) := by
  have h := congrArg (List.map Prod.snd) (assignOrders_proj done k bs)
  simpa [List.map_map, Function.comp] using h

theorem mem_insertByOrder (b x : PRBucket) :
    ∀ l, x ∈ insertByOrder b l ↔ x = b ∨ x ∈ l := by
  intro l
  induction l with
  | nil => simp [insertByOrder]
  | cons y t ih =>
    by_cases h : orderNum y ≤ orderNum b
    · simp only [insertByOrder, h, if_true, List.mem_cons, ih]
      tauto
    · simp only [insertByOrder, h, if_false, List.mem_cons]

theorem mem_getBucketsInOrder (x : PRBucket) :
    ∀ l, x ∈ getBucketsInOrder l ↔ x ∈ l := by
  intro l
  induction l with
  | nil => simp [getBucketsInOrder]
  | cons y t ih =>
    simp only [getBucketsInOrder, mem_insertByOrder, List.mem_cons, ih]

theorem sorted_insertByOrder (b : PRBucket) :
    ∀ l, l.Pairwise (fun x y => orderNum x ≤ orderNum y) →
      (insertByOrder b l).Pairwise (fun x y => orderNum x ≤ orderNum y) := by
  intro l
  induction l with
  | nil => intro _; simp [insertByOrder]
  | cons y t ih =>
    intro hp
    obtain ⟨hy, ht⟩ := List.pairwise_cons.mp hp
    by_cases h : orderNum y ≤ orderNum b
    · simp only [insertByOrder, h, if_true]
      refine List.pairwise_cons.mpr ⟨?_, ih ht⟩
      intro z hz
      rcases (mem_insertByOrder b z t).mp hz with rfl | hzt
      · exact h
      · exact hy z hzt
    · simp only [insertByOrder, h, if_false]
      refine List.pairwise_cons.mpr ⟨?_, hp⟩
      intro z hz
      rcases List.mem_cons.mp hz with rfl | hzt
      · omega
      · have := hy z hzt
        omega

theorem sorted_getBucketsInOrder :
    ∀ l : List PRBucket,
      (getBucketsInOrder l).Pairwise (fun x y => orderNum x ≤ orderNum y) := by
  intro l
  induction l with
  | nil => simp [getBucketsInOrder]
  | cons y t ih => exact sorted_insertByOrder y (getBucketsInOrder t) ih

theorem indexOf_lt_of_key_lt :
    ∀ l : List PRBucket,
      l.Pairwise (fun x y => orderNum x ≤ orderNum y) →
      ∀ a b, a ∈ l → b ∈ l → orderNum a < orderNum b →
        l.indexOf a < l.indexOf b := by
  intro l
  induction l with
  | nil => intro _ a b ha _ _; cases ha
  | cons x t ih =>
    intro hp a b ha hb hlt
    obtain ⟨hx, ht⟩ := List.pairwise_cons.mp hp
    by_cases hax : a = x
    · have hbx : b ≠ x := by
        intro hc
        rw [hax, hc] at hlt
        omega
      rw [hax, List.indexOf_cons_self,
        List.indexOf_cons_ne t (fun hc => hbx hc.symm)]
      omega
    · have hat : a ∈ t := by
        rcases List.mem_cons.mp ha with rfl | h
        · exact absurd rfl hax
        · exact h
      by_cases hbx : b = x
      · have := hx a hat
        rw [hbx] at hlt
        omega
      · have hbt : b ∈ t := by
          rcases List.mem_cons.mp hb with rfl | h
          · exact absurd rfl hbx
          · exact h
        rw [List.indexOf_cons_ne t (fun hc => hax hc.symm),
          List.indexOf_cons_ne t (fun hc => hbx hc.symm)]
        have := ih ht a b hat hbt hlt
        omega

theorem transGen_orderNum (l : List PRBucket) (hord : OrderRespectsDeps l) :
    ∀ n m, Relation.TransGen (DepEdge l) n m →
      ∀ bn bm, findByName l n = some bn → findByName l m = some bm →
        orderNum bm < orderNum bn := by
  intro n m h
  induction h with
  | single hedge =>
    intro bn bm hfn hfm
    obtain ⟨b0, hf0, hd0⟩ := hedge
    rw [hfn] at hf0
    cases hf0
    exact hord bn (findByName_mem l n bn hfn).1 _ hd0 bm hfm
  | tail hab hbc ihab =>
    intro bn bm hfn hfm
    obtain ⟨bb, hfb, hdb⟩ := hbc
    have h1 := ihab bn bb hfn hfb
    have h2 := hord bb (findByName_mem l _ bb hfb).1 _ hdb bm hfm
    omega

theorem acyclic_rank_decrease (bs : List PRBucket) (rank : String → Nat)
    (h : ∀ n m, DepEdge bs n m → rank m < rank n) :
    ∀ n m, Relation.TransGen (DepEdge bs) n m → rank m < rank n := by
  intro n m htg
  induction htg with
  | single hedge => exact h _ _ hedge
  | tail _ hbc ih =>
    have := h _ _ hbc
    omega

theorem acyclic_of_rank (bs : List PRBucket) (rank : String → Nat)
    (h : ∀ n m, DepEdge bs n m → rank m < rank n) : AcyclicDeps bs := by
  intro n hcyc
  have := acyclic_rank_decrease bs rank h n n hcyc
  omega

/-- C5: for every bucket set with unique names whose dependsOn edges form
an acyclic graph, recomputing the order succeeds on the first pass (no
edge is touched: names and dependsOn edges are preserved verbatim), and in
the resulting `getBucketsInOrder` listing every bucket appears strictly
after every bucket it transitively depends on. -/
theorem C5_topological_validity (bs : List PRBucket)
    (hnd : (bs.map (fun b => b.name)).Nodup) (hacyc : AcyclicDeps bs) :
    ∃ bs2 ws, updateBucketOrder bs = some (bs2, ws) ∧
      bs2.map (fun b => b.name) = bs.map (fun b => b.name) ∧
      bs2.map (fun b => b.dependsOn) = bs.map (fun b => b.dependsOn) ∧
      ∀ a b2, a ∈ bs2 → b2 ∈ bs2 →
        Relation.TransGen (DepEdge bs2) b2.name a.name →
        (getBucketsInOrder bs2).indexOf a <
          (getBucketsInOrder bs2).indexOf b2 := by
  cases hsp : sortPass bs with
  | cycleAt i =>
    exact absurd hsp
      (sortPassAux_no_cycle bs (bs.length + 1) hacyc (bs.length + 1) 0 [] i)
  | fuelOut => exact absurd hsp (sortPass_no_fuelOut bs)
  | ok done =>
    obtain ⟨hDG, hcomp⟩ := sortPass_ok_good bs done hsp
    refine ⟨assignOrders done 0 bs, [], ?_,
      assignOrders_map_name done 0 bs, assignOrders_map_dependsOn done 0 bs,
      ?_⟩
    · unfold updateBucketOrder updateOrderFuel
      rw [hsp]
    · intro a b2 ha hb2 htg
      have hord : OrderRespectsDeps (assignOrders done 0 bs) :=
        ordered_of_pass bs done hnd hDG hcomp
      have hnd2 : ((assignOrders done 0 bs).map (fun b => b.name)).Nodup := by
        rw [assignOrders_map_name]
        exact hnd
      have hfa := findByName_of_nodup _ a hnd2 ha
      have hfb := findByName_of_nodup _ b2 hnd2 hb2
      have hlt : orderNum a < orderNum b2 :=
        transGen_orderNum _ hord b2.name a.name htg b2 a hfb hfa
      exact indexOf_lt_of_key_lt _ (sorted_getBucketsInOrder _) a b2
        ((mem_getBucketsInOrder a _).mpr ha)
        ((mem_getBucketsInOrder b2 _).mpr hb2) hlt

/-- C5 witness: the acyclic chain `A → B → C` (with default base `C`
first) is ordered with every bucket after its dependencies. -/
theorem C5_topological_validity_witness :
    (([depA, depB, depC].map (fun b => b.name)).Nodup) ∧
    AcyclicDeps [depA, depB, depC] ∧
    ∃ bs2 ws, updateBucketOrder [depA, depB, depC] = some (bs2, ws) ∧
      bs2.map (fun b => b.name) = [depA, depB, depC].map (fun b => b.name) ∧
      bs2.map (fun b => b.dependsOn) =
        [depA, depB, depC].map (fun b => b.dependsOn) ∧
      ∀ a b2, a ∈ bs2 → b2 ∈ bs2 →
        Relation.TransGen (DepEdge bs2) b2.name a.name →
        (getBucketsInOrder bs2).indexOf a <
          (getBucketsInOrder bs2).indexOf b2 := by
  have hac : AcyclicDeps [depA, depB, depC] := by
    apply acyclic_of_rank _
      (fun s => if s = "A" then 2 else if s = "B" then 1 else 0)
    rintro n m ⟨b, hf, hd⟩
    obtain ⟨hb, hn⟩ := findByName_mem _ n b hf
    have hb3 : b = depA ∨ b = depB ∨ b = depC := by simpa using hb
    rcases hb3 with rfl | rfl | rfl
    · have hm : m = "B" := by
        have : (some "B" : Option String) = some m := hd
        exact (Option.some_inj.mp this).symm
      rw [← hn, hm]
      decide
    · have hm : m = "C" := by
        have : (some "C" : Option String) = some m := hd
        exact (Option.some_inj.mp this).symm
      rw [← hn, hm]
      decide
    · have : (none : Option String) = some m := hd
      cases this
  exact ⟨by decide, hac, C5_topological_validity [depA, depB, depC]
    (by decide) hac⟩

theorem setDepFirst_map_name (n : String) (dp : Option String) :
    ∀ bs : List PRBucket,
      (setDepFirst n dp bs).map (fun b => b.name) =
        bs.map (fun b => b.name) := by
  intro bs
  induction bs with
  | nil => rfl
  | cons x t ih =>
    unfold setDepFirst
    split
    · simp
    · simp [ih]

/-- C6 counterexample: buckets `A → B → C` in insertion order; calling
setDependency to give `C` the edge `C → B` creates the cycle `B ↔ C`.
The claim expects exactly the just-set edge (C's) to be cleared and all
other edges kept (`[some B, some C, none]`); instead the code clears A's
and then B's edges — buckets whose DFS visit merely reaches the cycle —
and leaves the just-set edge applied (`[none, none, some B]`). -/
theorem C6_cycle_break_counterexample :
    ¬ ((setBucketDependency [depA, depB, depC] "C" (some "B")).map
        (fun r => r.1.map (fun b => b.dependsOn)) =
      some [some "B", some "C", none]) ∧
    (setBucketDependency [depA, depB, depC] "C" (some "B")).map
        (fun r => r.1.map (fun b => b.dependsOn)) =
      some [none, none, some "B"] := by
  refine ⟨?_, by decide⟩
  intro h
  have h2 : (setBucketDependency [depA, depB, depC] "C" (some "B")).map
      (fun r => r.1.map (fun b => b.dependsOn)) =
      some [none, none, some "B"] := by decide
  rw [h2] at h
  cases h

/-- C6 (amended): when the new edge would create a cycle, the call still
completes successfully — never a hard failure — with the removed-edge
warnings recorded, and the resulting dependency graph is acyclic (every
bucket's order key is strictly above its dependency's).  However, the
resolver does not clear exactly the just-set edge: it repeatedly clears
the `dependsOn` edge of the first bucket in insertion order whose
depth-first visit reaches the cycle, so other buckets' edges may be
cleared while the just-set edge remains applied (see the
counterexample). -/
theorem C6_cycle_break_amended (bs : List PRBucket) (n : String)
    (dp : Option String) (hnd : (bs.map (fun b => b.name)).Nodup)
    (hex : ∃ b ∈ bs, b.name = n) :
    ∃ bs2 ws, setBucketDependency bs n dp = some (bs2, ws) ∧
      OrderRespectsDeps bs2 := by
  unfold setBucketDependency
  obtain ⟨b, hb, hbn⟩ := hex
  rw [if_pos (List.any_eq_true.mpr ⟨b, hb, by simp [hbn]⟩)]
  exact updateOrderFuel_ok (edgeCount (setDepFirst n dp bs) + 1)
    (setDepFirst n dp bs) []
    (by rw [setDepFirst_map_name]; exact hnd) (Nat.le_refl _)

/-- C6 amended witness: the cyclic `setDependency C → B` call completes
with an acyclic result. -/
theorem C6_cycle_break_amended_witness :
    (([depA, depB, depC].map (fun b => b.name)).Nodup) ∧
    ∃ bs2 ws, setBucketDependency [depA, depB, depC] "C" (some "B") =
        some (bs2, ws) ∧ OrderRespectsDeps bs2 :=
  ⟨by decide, C6_cycle_break_amended [depA, depB, depC] "C" (some "B")
    (by decide) ⟨depC, by decide, by decide⟩⟩

/-- C10 witness: concrete empty-workspace context. -/
theorem C10_no_workspace_witness :
    noRootCtx.workspaceRoot = "" ∧
    commitBucket noRootCtx fixBucket = (.ok (), []) ∧
    createBranchForBucket noRootCtx "b" (some "main") =
      (.error "No workspace root found", []) := by
  have h := C10_no_workspace noRootCtx rfl
  exact ⟨rfl, h.1 _, h.2.2.2 _ _⟩

end MultiPR
